import Mathlib

/-!
# Verification of the lab0-c queue (`queue.c`)

Shallow embedding of the circular doubly-linked queue operations from
`queue.c`.  Payload strings are modelled as lists of bytes (`CStr`); a
queue handle (possibly NULL) is modelled as `Option`; the value-level
behaviour of each operation is modelled as a function on Lean lists,
translated from the corresponding C function.
-/

set_option maxHeartbeats 1000000

/-- A C string payload: the sequence of bytes up to (excluding) the NUL
terminator. -/
abbrev CStr := List Nat

/-- `strcmp` from the C library, on the byte sequences of two strings:
returns a negative / zero / positive value according to the first
differing byte (bytes compared as unsigned chars); a shorter string that
is a prefix of the other compares smaller (its NUL byte is smaller). -/
def strcmp : CStr → CStr → Int
  | [], [] => 0
  | [], _ :: _ => -1
  | _ :: _, [] => 1
  | a :: s, b :: t => if a < b then -1 else if b < a then 1 else strcmp s t

theorem strcmp_self : ∀ a : CStr, strcmp a a = 0
  | [] => rfl
  | _ :: s => by simp [strcmp, strcmp_self s]

theorem strcmp_eq_zero_iff : ∀ a b : CStr, strcmp a b = 0 ↔ a = b
  | [], [] => by simp [strcmp]
  | [], _ :: _ => by simp [strcmp]
  | _ :: _, [] => by simp [strcmp]
  | x :: s, y :: t => by
      simp only [strcmp]
      rcases Nat.lt_trichotomy x y with h | h | h
      · simp [h, Nat.ne_of_lt h]
      · simp [h, Nat.lt_irrefl, strcmp_eq_zero_iff s t]
      · simp [h, Nat.lt_asymm h, (Nat.ne_of_lt h).symm]

theorem strcmp_neg : ∀ a b : CStr, strcmp b a = -strcmp a b
  | [], [] => rfl
  | [], _ :: _ => rfl
  | _ :: _, [] => rfl
  | x :: s, y :: t => by
      simp only [strcmp]
      rcases Nat.lt_trichotomy x y with h | h | h
      · simp [h, Nat.lt_asymm h]
      · simp [h, Nat.lt_irrefl, strcmp_neg s t]
      · simp [h, Nat.lt_asymm h]

theorem strcmp_cases : ∀ a b : CStr, strcmp a b = -1 ∨ strcmp a b = 0 ∨ strcmp a b = 1
  | [], [] => by simp [strcmp]
  | [], _ :: _ => by simp [strcmp]
  | _ :: _, [] => by simp [strcmp]
  | x :: s, y :: t => by
      simp only [strcmp]
      rcases Nat.lt_trichotomy x y with h | h | h
      · simp [h]
      · rcases strcmp_cases s t with h' | h' | h' <;> simp [h, Nat.lt_irrefl, h']
      · simp [h, Nat.lt_asymm h]

theorem strcmp_lt_trans :
    ∀ a b c : CStr, strcmp a b < 0 → strcmp b c < 0 → strcmp a c < 0
  | a, [], _, hab, _ => by cases a <;> simp [strcmp] at hab
  | _, _ :: _, [], _, hbc => by simp [strcmp] at hbc
  | [], _ :: _, _ :: _, _, _ => by simp [strcmp]
  | x :: s, y :: t, z :: u, hab, hbc => by
      simp only [strcmp] at hab hbc ⊢
      by_cases hxy : x < y
      · by_cases hyz : y < z
        · simp [Nat.lt_trans hxy hyz]
        · by_cases hzy : z < y
          · simp [hxy, hyz, hzy] at hbc
          · have hyz' : y = z := Nat.le_antisymm (Nat.le_of_not_lt hzy) (Nat.le_of_not_lt hyz)
            simp [hyz' ▸ hxy]
      · by_cases hyx : y < x
        · simp [hxy, hyx] at hab
        · have hxy' : x = y := Nat.le_antisymm (Nat.le_of_not_lt hyx) (Nat.le_of_not_lt hxy)
          subst hxy'
          simp only [if_neg (Nat.lt_irrefl x)] at hab
          by_cases hyz : x < z
          · simp [hyz]
          · by_cases hzy : z < x
            · simp [hyz, hzy] at hbc
            · have hyz' : x = z := Nat.le_antisymm (Nat.le_of_not_lt hzy) (Nat.le_of_not_lt hyz)
              subst hyz'
              simp only [if_neg (Nat.lt_irrefl x)] at hbc ⊢
              exact strcmp_lt_trans s t u hab hbc

/-- The `strcmp _ _ ≤ 0` ordering is transitive. -/
theorem strcmp_le_trans {a b c : CStr} (hab : strcmp a b ≤ 0) (hbc : strcmp b c ≤ 0) :
    strcmp a c ≤ 0 := by
  by_cases hab0 : strcmp a b = 0
  · rw [(strcmp_eq_zero_iff a b).mp hab0]; exact hbc
  · by_cases hbc0 : strcmp b c = 0
    · rw [← (strcmp_eq_zero_iff b c).mp hbc0]; exact hab
    · exact le_of_lt (strcmp_lt_trans a b c
        (lt_of_le_of_ne hab hab0) (lt_of_le_of_ne hbc hbc0))

/-- The `strcmp _ _ ≤ 0` ordering is total. -/
theorem strcmp_le_total (a b : CStr) : strcmp a b ≤ 0 ∨ strcmp b a ≤ 0 := by
  rcases strcmp_cases a b with h | h | h
  · left; rw [h]; norm_num
  · left; rw [h]
  · right; rw [strcmp_neg a b, h]; norm_num

/-! ## The fast/slow two-pointer scan

Both `merge_sort` (to find its split point) and `q_delete_mid` (to find
the middle node) advance a fast cursor two links per step while a slow
cursor advances one; the loop body runs while the fast cursor still has
at least two nodes ahead of the terminator.  `fastSlowSteps l` is the
number of iterations of that loop when the fast cursor starts at the
first node of `l`. -/
def fastSlowSteps : List α → Nat
  | [] => 0
  | [_] => 0
  | _ :: _ :: r => fastSlowSteps r + 1

theorem fastSlowSteps_eq : ∀ l : List α, fastSlowSteps l = l.length / 2
  | [] => by simp [fastSlowSteps]
  | [_] => by simp [fastSlowSteps]
  | _ :: _ :: r => by
      simp only [fastSlowSteps, fastSlowSteps_eq r, List.length_cons]
      omega

/-! ## `merge_two_lists` and `merge_sort` (`queue.c:302-336`)

`merge_sort` works on a NULL-terminated singly linked chain of elements
carved out of the ring by `q_sort`.  We model the chain as a Lean list
of elements of an arbitrary type `α`, with `val : α → CStr` giving the
payload (`list_entry(node)->value`) of each element; this lets the same
definitions serve both the payload-level statements (with `α := CStr`,
`val := id`) and node- or tag-level statements.

`merge_two_lists` picks the element with `strcmp(v1, v2) <= 0` (so on a
tie the element of the first chain); when either chain runs out, the C
code splices the rest of the other via `(uintptr_t) l1 | (uintptr_t) l2`
— one of the two is NULL there, which is the first two equations. -/
def merge_two_lists (val : α → CStr) : List α → List α → List α
  | [], l2 => l2
  | a :: l1, [] => a :: l1
  | a :: l1, b :: l2 =>
      if strcmp (val a) (val b) ≤ 0 then a :: merge_two_lists val l1 (b :: l2)
      else b :: merge_two_lists val (a :: l1) l2

/-- `merge_sort` (`queue.c:320-336`): return the chain unchanged when it
has fewer than two elements; otherwise cut it after the slow cursor of
the fast/slow scan (the fast cursor starts at `head->next`, i.e. on the
tail of the chain) and merge the two recursively sorted halves. -/
def merge_sort (val : α → CStr) : List α → List α
  | [] => []
  | [a] => [a]
  | a :: b :: rest =>
      merge_two_lists val
        (merge_sort val ((a :: b :: rest).take (fastSlowSteps (b :: rest) + 1)))
        (merge_sort val ((a :: b :: rest).drop (fastSlowSteps (b :: rest) + 1)))
termination_by l => l.length
decreasing_by
  · simp [List.length_take, fastSlowSteps_eq]; omega
  · simp [List.length_drop, fastSlowSteps_eq]; omega

/-- `q_size` (`queue.c:167-179`): 0 on a NULL or empty queue, else the
number of elements found by walking the ring. -/
def q_size : Option (List α) → Nat
  | none => 0
  | some l => l.length

/-- `q_sort` (`queue.c:338-355`): nothing happens when `q_size(head) <= 1`
(this covers NULL, empty and singleton queues); otherwise the ring is cut
into a chain, `merge_sort`ed, and re-threaded into a ring holding the
sorted chain. -/
def q_sort (val : α → CStr) (q : Option (List α)) : Option (List α) :=
  if q_size q ≤ 1 then q
  else q.map (merge_sort val)

/-! ## Correctness lemmas for the merge sort -/

/-- The ordering used by the merge: element `a` goes first when
`strcmp(a->value, b->value) <= 0`. -/
def valLe (val : α → CStr) (a b : α) : Prop := strcmp (val a) (val b) ≤ 0

theorem valLe_trans {val : α → CStr} {a b c : α}
    (h1 : valLe val a b) (h2 : valLe val b c) : valLe val a c :=
  strcmp_le_trans h1 h2

theorem valLe_of_not_valLe {val : α → CStr} {a b : α} (h : ¬valLe val a b) :
    valLe val b a := by
  rcases strcmp_le_total (val a) (val b) with h' | h'
  · exact absurd h' h
  · exact h'

theorem strcmp_lt_of_lt_of_le {a b c : CStr}
    (h1 : strcmp a b < 0) (h2 : strcmp b c ≤ 0) : strcmp a c < 0 := by
  by_cases h0 : strcmp b c = 0
  · rwa [← (strcmp_eq_zero_iff b c).mp h0]
  · exact strcmp_lt_trans a b c h1 (lt_of_le_of_ne h2 h0)

theorem merge_two_lists_perm (val : α → CStr) (l1 l2 : List α) :
    (merge_two_lists val l1 l2).Perm (l1 ++ l2) := by
  induction l1, l2 using merge_two_lists.induct val with
  | case1 l2 => simp [merge_two_lists]
  | case2 a l1 => simp [merge_two_lists]
  | case3 a l1 b l2 h ih =>
      simp only [merge_two_lists, if_pos h, List.cons_append]
      exact ih.cons a
  | case4 a l1 b l2 h ih =>
      simp only [merge_two_lists, if_neg h]
      exact (ih.cons b).trans (List.Perm.symm (List.perm_middle))

theorem mem_merge_two_lists {val : α → CStr} {l1 l2 : List α} {x : α} :
    x ∈ merge_two_lists val l1 l2 ↔ x ∈ l1 ∨ x ∈ l2 := by
  rw [(merge_two_lists_perm val l1 l2).mem_iff, List.mem_append]

theorem merge_two_lists_pairwise {val : α → CStr} {l1 l2 : List α}
    (h1 : List.Pairwise (valLe val) l1) (h2 : List.Pairwise (valLe val) l2) :
    List.Pairwise (valLe val) (merge_two_lists val l1 l2) := by
  induction l1, l2 using merge_two_lists.induct val with
  | case1 l2 => simpa [merge_two_lists] using h2
  | case2 a l1 => simpa [merge_two_lists] using h1
  | case3 a l1 b l2 h ih =>
      simp only [merge_two_lists, if_pos h]
      refine List.pairwise_cons.mpr ⟨fun x hx => ?_, ih h1.tail h2⟩
      rcases mem_merge_two_lists.mp hx with hx | hx
      · exact List.rel_of_pairwise_cons h1 hx
      · rcases List.mem_cons.mp hx with rfl | hx
        · exact h
        · exact valLe_trans h (List.rel_of_pairwise_cons h2 hx)
  | case4 a l1 b l2 h ih =>
      simp only [merge_two_lists, if_neg h]
      refine List.pairwise_cons.mpr ⟨fun x hx => ?_, ih h1 h2.tail⟩
      have hba : valLe val b a := valLe_of_not_valLe h
      rcases mem_merge_two_lists.mp hx with hx | hx
      · rcases List.mem_cons.mp hx with rfl | hx
        · exact hba
        · exact valLe_trans hba (List.rel_of_pairwise_cons h1 hx)
      · exact List.rel_of_pairwise_cons h2 hx

/-- Stability of the merge: since ties pick the element of the first
chain, merging a sorted first chain with any second chain keeps the
elements of a fixed payload `P` in order: first those of the first
chain, then those of the second. -/
theorem merge_two_lists_filter {val : α → CStr} (P : CStr) {l1 l2 : List α}
    (h1 : List.Pairwise (valLe val) l1) :
    (merge_two_lists val l1 l2).filter (fun x => decide (val x = P)) =
      l1.filter (fun x => decide (val x = P)) ++
        l2.filter (fun x => decide (val x = P)) := by
  induction l1, l2 using merge_two_lists.induct val with
  | case1 l2 => simp [merge_two_lists]
  | case2 a l1 => simp [merge_two_lists]
  | case3 a l1 b l2 h ih =>
      simp only [merge_two_lists, if_pos h]
      by_cases hP : val a = P
      · simp [List.filter_cons, hP, ih h1.tail]
      · simp [List.filter_cons, hP, ih h1.tail]
  | case4 a l1 b l2 h ih =>
      simp only [merge_two_lists, if_neg h]
      have hgt : 0 < strcmp (val a) (val b) := lt_of_not_le h
      have hlt : strcmp (val b) (val a) < 0 := by
        rw [strcmp_neg (val a) (val b)]; omega
      by_cases hP : val b = P
      · have hnone : ∀ x ∈ a :: l1, ¬(val x = P) := by
          intro x hx hxP
          have hbx : strcmp (val b) (val x) < 0 := by
            rcases List.mem_cons.mp hx with rfl | hx'
            · exact hlt
            · exact strcmp_lt_of_lt_of_le hlt (List.rel_of_pairwise_cons h1 hx')
          rw [hP, hxP, strcmp_self] at hbx
          omega
        have hfilt : (a :: l1).filter (fun x => decide (val x = P)) = [] := by
          refine List.filter_eq_nil_iff.mpr ?_
          intro x hx
          simpa using hnone x hx
        simp [List.filter_cons, hP, ih h1, hfilt]
      · simp [List.filter_cons, hP, ih h1]

theorem merge_sort_perm (val : α → CStr) (l : List α) : (merge_sort val l).Perm l := by
  induction l using merge_sort.induct val with
  | case1 => simp [merge_sort]
  | case2 a => simp [merge_sort]
  | case3 a b rest ih1 ih2 =>
      rw [merge_sort]
      refine (merge_two_lists_perm val _ _).trans ((ih1.append ih2).trans ?_)
      rw [List.take_append_drop]

theorem merge_sort_pairwise (val : α → CStr) (l : List α) :
    List.Pairwise (valLe val) (merge_sort val l) := by
  induction l using merge_sort.induct val with
  | case1 => simp [merge_sort]
  | case2 a => simp [merge_sort]
  | case3 a b rest ih1 ih2 =>
      rw [merge_sort]
      exact merge_two_lists_pairwise ih1 ih2

theorem merge_sort_filter (val : α → CStr) (P : CStr) (l : List α) :
    (merge_sort val l).filter (fun x => decide (val x = P)) =
      l.filter (fun x => decide (val x = P)) := by
  induction l using merge_sort.induct val with
  | case1 => simp [merge_sort]
  | case2 a => simp [merge_sort]
  | case3 a b rest ih1 ih2 =>
      rw [merge_sort, merge_two_lists_filter P (merge_sort_pairwise val _), ih1, ih2,
        ← List.filter_append, List.take_append_drop]

/-- C1.  For every queue, `q_sort` returns a queue in which every
adjacent pair `(A, B)` from head to tail satisfies `strcmp A B ≤ 0`, the
multiset of payloads is unchanged (`Perm`), a queue of at most one
element is returned unchanged, and a NULL queue is untouched. -/
theorem q_sort_correct (l : List CStr) :
    q_sort (id : CStr → CStr) none = none ∧
    ∃ l', q_sort id (some l) = some l' ∧
      List.Chain' (fun A B => strcmp A B ≤ 0) l' ∧
      l'.Perm l ∧
      (l.length ≤ 1 → l' = l) := by
  refine ⟨rfl, ?_⟩
  by_cases hlen : l.length ≤ 1
  · refine ⟨l, ?_, ?_, List.Perm.refl l, fun _ => rfl⟩
    · simp [q_sort, q_size, hlen]
    · match l, hlen with
      | [], _ => exact List.chain'_nil
      | [a], _ => exact List.chain'_singleton a
  · refine ⟨merge_sort id l, ?_, ?_, merge_sort_perm id l, fun h => absurd h hlen⟩
    · simp [q_sort, q_size, hlen]
    · exact List.Pairwise.chain' (merge_sort_pairwise id l)

/-- Closed instance of `q_sort_correct` at a concrete queue. -/
theorem q_sort_correct_witness :
    q_sort (id : CStr → CStr) none = none ∧
    ∃ l', q_sort id (some [[50], [49], [49], [48]]) = some l' ∧
      List.Chain' (fun A B => strcmp A B ≤ 0) l' ∧
      l'.Perm [[50], [49], [49], [48]] ∧
      (([[50], [49], [49], [48]] : List CStr).length ≤ 1 →
        l' = [[50], [49], [49], [48]]) :=
  q_sort_correct [[50], [49], [49], [48]]

/-! ## Stability of `q_sort` (instantiated on tagged elements)

To talk about two distinct elements with byte-equal payloads, we work
with elements of type `CStr × Nat` — a payload together with a tag that
identifies the node — and sort with `val := Prod.fst`, exactly the
comparison the C code performs (`strcmp` on the payloads, ignoring node
identity). -/

/-- `x` occurs strictly before `y` in the list `m`. -/
def precedes (m : List α) (x y : α) : Prop :=
  ∃ i j : Nat, i < j ∧ m[i]? = some x ∧ m[j]? = some y

theorem precedes_cons {a : α} {t : List α} {x y : α} :
    precedes (a :: t) x y ↔ (a = x ∧ y ∈ t) ∨ precedes t x y := by
  constructor
  · rintro ⟨i, j, hij, hi, hj⟩
    match i, j, hij with
    | 0, j + 1, _ =>
        refine Or.inl ⟨by simpa using hi, ?_⟩
        have hj' : t[j]? = some y := by simpa using hj
        exact List.mem_iff_getElem?.mpr ⟨j, hj'⟩
    | i + 1, j + 1, h =>
        exact Or.inr ⟨i, j, by omega, by simpa using hi, by simpa using hj⟩
  · rintro (⟨rfl, hy⟩ | ⟨i, j, hij, hi, hj⟩)
    · obtain ⟨j, hj⟩ := List.mem_iff_getElem?.mp hy
      exact ⟨0, j + 1, by omega, by simp, by simpa using hj⟩
    · exact ⟨i + 1, j + 1, by omega, by simpa using hi, by simpa using hj⟩

theorem precedes_mem {m : List α} {x y : α} (h : precedes m x y) : x ∈ m ∧ y ∈ m := by
  obtain ⟨i, j, _, hi, hj⟩ := h
  exact ⟨List.mem_iff_getElem?.mpr ⟨i, hi⟩, List.mem_iff_getElem?.mpr ⟨j, hj⟩⟩

/-- In a duplicate-free list, filtering by a predicate that holds of `x`
and `y` neither creates nor destroys the relative order of `x` and `y`. -/
theorem precedes_filter_iff {m : List α} (hnd : m.Nodup) (p : α → Bool) {x y : α}
    (hx : p x = true) (hy : p y = true) :
    precedes m x y ↔ precedes (m.filter p) x y := by
  induction m with
  | nil => simp [precedes]
  | cons a t ih =>
      have ht : t.Nodup := (List.nodup_cons.mp hnd).2
      rw [precedes_cons]
      by_cases hpa : p a = true
      · rw [List.filter_cons_of_pos hpa, precedes_cons]
        constructor
        · rintro (⟨rfl, hyt⟩ | h)
          · exact Or.inl ⟨rfl, List.mem_filter.mpr ⟨hyt, hy⟩⟩
          · exact Or.inr ((ih ht).mp h)
        · rintro (⟨rfl, hyt⟩ | h)
          · exact Or.inl ⟨rfl, (List.mem_filter.mp hyt).1⟩
          · exact Or.inr ((ih ht).mpr h)
      · rw [List.filter_cons_of_neg (by simpa using hpa)]
        constructor
        · rintro (⟨rfl, _⟩ | h)
          · exact absurd hx hpa
          · exact (ih ht).mp h
        · intro h
          exact Or.inr ((ih ht).mpr h)

theorem nodup_not_precedes_self {m : List α} (hnd : m.Nodup) (x : α) :
    ¬precedes m x x := by
  rintro ⟨i, j, hij, hi, hj⟩
  have hjlen : j < m.length := by
    by_contra hle
    rw [List.getElem?_eq_none (Nat.le_of_not_lt hle)] at hj
    exact Option.noConfusion hj
  exact (List.nodup_iff_getElem?_ne_getElem?.mp hnd i j hij hjlen) (hi.trans hj.symm)

/-- C2.  `q_sort` is stable: if the queue holds two distinct elements
`X`, `Y` (distinguished by their tag) with byte-equal payloads and `X`
precedes `Y`, then after sorting `X` still precedes `Y`, because the
merge step emits from the first chain whenever the front payloads
compare equal. -/
theorem q_sort_stable (l : List (CStr × Nat)) (X Y : CStr × Nat)
    (htags : (l.map Prod.snd).Nodup) (hkey : X.1 = Y.1)
    (hXY : precedes l X Y) :
    ∃ l', q_sort Prod.fst (some l) = some l' ∧ precedes l' X Y := by
  have hnd : l.Nodup := htags.of_map
  by_cases hlen : l.length ≤ 1
  · exact ⟨l, by simp [q_sort, q_size, hlen], hXY⟩
  · refine ⟨merge_sort Prod.fst l, by simp [q_sort, q_size, hlen], ?_⟩
    have hnd' : (merge_sort Prod.fst l).Nodup :=
      (merge_sort_perm Prod.fst l).nodup_iff.mpr hnd
    rw [precedes_filter_iff hnd' (fun z : CStr × Nat => decide (z.1 = X.1))
      (by simp) (by simp [← hkey]), merge_sort_filter Prod.fst X.1 l]
    exact (precedes_filter_iff hnd (fun z : CStr × Nat => decide (z.1 = X.1))
      (by simp) (by simp [← hkey])).mp hXY

/-- Closed instance of `q_sort_stable`: two byte-equal payloads `"1"`
with tags 0 and 1, plus a smaller payload to make the sort nontrivial. -/
theorem q_sort_stable_witness :
    ∃ l', q_sort Prod.fst (some [([49], 0), ([49], 1), ([48], 2)]) = some l' ∧
      precedes l' ([49], 0) ([49], 1) :=
  q_sort_stable [([49], 0), ([49], 1), ([48], 2)] ([49], 0) ([49], 1)
    (by decide) rfl ⟨0, 1, by omega, rfl, rfl⟩

/-! ## `q_delete_dup` (`queue.c:217-253`)

The C scan keeps a `start` cursor; an inner loop deletes every
immediately following node whose payload is `strcmp`-equal to
`start`'s; if at least one was deleted (`prev` was set), `start` itself
is also deleted; then the scan restarts at the first differing node. -/
def q_delete_dup_scan (val : α → CStr) : List α → List α
  | [] => []
  | a :: rest =>
      if (rest.takeWhile fun b => strcmp (val a) (val b) == 0).isEmpty then
        a :: q_delete_dup_scan val (rest.dropWhile fun b => strcmp (val a) (val b) == 0)
      else
        q_delete_dup_scan val (rest.dropWhile fun b => strcmp (val a) (val b) == 0)
termination_by l => l.length
decreasing_by
  all_goals
    simp only [List.length_cons]
    exact Nat.lt_succ_of_le (List.Sublist.length_le (List.dropWhile_sublist _))

/-- `q_delete_dup`: `false` exactly on a NULL handle; an empty queue
returns `true` unchanged; otherwise the scan above runs on the ring. -/
def q_delete_dup (q : Option (List CStr)) : Bool × Option (List CStr) :=
  match q with
  | none => (false, none)
  | some l => (true, some (q_delete_dup_scan id l))

theorem chain'_strcmp_pairwise {l : List CStr}
    (h : List.Chain' (fun A B => strcmp A B ≤ 0) l) :
    List.Pairwise (fun A B => strcmp A B ≤ 0) l := by
  haveI : IsTrans CStr (fun A B => strcmp A B ≤ 0) := ⟨fun a b c => strcmp_le_trans⟩
  exact List.chain'_iff_pairwise.mp h

theorem dropWhile_dup_lt {a : CStr} : ∀ {rest : List CStr},
    List.Pairwise (fun A B => strcmp A B ≤ 0) (a :: rest) →
    ∀ x ∈ rest.dropWhile (fun b => strcmp a b == 0), strcmp a x < 0 := by
  intro rest
  induction rest with
  | nil => simp
  | cons b rest' ih =>
      intro hp x hx
      rw [List.dropWhile_cons] at hx
      by_cases hb : (strcmp a b == 0) = true
      · rw [if_pos hb] at hx
        have hsub : List.Sublist (a :: rest') (a :: b :: rest') :=
          List.Sublist.cons₂ a (List.sublist_cons_self b rest')
        exact ih (hp.sublist hsub) x hx
      · rw [if_neg hb] at hx
        have hb' : strcmp a b ≠ 0 := by simpa using hb
        have hab : strcmp a b < 0 :=
          lt_of_le_of_ne ((List.pairwise_cons.mp hp).1 b (by simp)) hb'
        rcases List.mem_cons.mp hx with rfl | hx'
        · exact hab
        · exact strcmp_lt_of_lt_of_le hab
            ((List.pairwise_cons.mp (List.pairwise_cons.mp hp).2).1 x hx')

theorem takeWhile_dup_eq {a : CStr} {rest : List CStr} :
    ∀ x ∈ rest.takeWhile (fun b => strcmp a b == 0), x = a := by
  intro x hx
  have h := List.mem_takeWhile_imp hx
  exact ((strcmp_eq_zero_iff a x).mp (by simpa using h)).symm

theorem scan_cons_eq (a : CStr) (rest : List CStr) :
    q_delete_dup_scan id (a :: rest) =
      if (rest.takeWhile fun b => strcmp a b == 0).isEmpty then
        a :: q_delete_dup_scan id (rest.dropWhile fun b => strcmp a b == 0)
      else q_delete_dup_scan id (rest.dropWhile fun b => strcmp a b == 0) := by
  rw [q_delete_dup_scan]
  simp only [id_eq]

theorem filter_count_cons {a : CStr} {rest : List CStr}
    (hane : ∀ x ∈ rest, a ≠ x) :
    (a :: rest).filter (fun x => decide (List.count x (a :: rest) = 1)) =
      a :: rest.filter (fun x => decide (List.count x rest = 1)) := by
  have hca : List.count a (a :: rest) = 1 := by
    rw [List.count_cons, List.count_eq_zero.mpr (fun h => hane a h rfl)]
    simp
  rw [List.filter_cons, if_pos (by simpa using hca)]
  congr 1
  refine List.filter_congr ?_
  intro x hx
  simp [List.count_cons, hane x hx]

theorem filter_count_split {a : CStr} {run rest2 : List CStr}
    (hrunall : ∀ x ∈ run, x = a) (hrunne : run ≠ [])
    (hane : ∀ x ∈ rest2, a ≠ x) :
    ((a :: run) ++ rest2).filter
        (fun x => decide (List.count x ((a :: run) ++ rest2) = 1)) =
      rest2.filter (fun x => decide (List.count x rest2 = 1)) := by
  have hca2 : List.count a rest2 = 0 := List.count_eq_zero.mpr (fun h => hane a h rfl)
  have hcr : List.count a run = run.length :=
    List.count_eq_length.mpr (fun b hb => (hrunall b hb).symm)
  have hrunlen : 0 < run.length := List.length_pos.mpr hrunne
  have hfa : (a :: run).filter
      (fun x => decide (List.count x ((a :: run) ++ rest2) = 1)) = [] := by
    refine List.filter_eq_nil_iff.mpr ?_
    intro x hx
    have hxa : x = a := by
      rcases List.mem_cons.mp hx with rfl | hx'
      · rfl
      · exact hrunall x hx'
    subst hxa
    have hcnt : List.count x ((x :: run) ++ rest2) = run.length + 1 := by
      rw [List.count_append, List.count_cons, hcr, hca2]
      simp
    simp [hcnt]
    omega
  rw [List.filter_append, hfa, List.nil_append]
  refine List.filter_congr ?_
  intro x hx
  have hxa : a ≠ x := hane x hx
  have hxrun : x ∉ run := fun h => hxa (hrunall x h).symm
  simp [List.count_append, List.count_cons, List.count_eq_zero.mpr hxrun, hxa]

/-- On a sorted list the scan keeps exactly the elements whose payload
occurs exactly once. -/
theorem q_delete_dup_scan_eq_filter : ∀ l : List CStr,
    List.Pairwise (fun A B => strcmp A B ≤ 0) l →
    q_delete_dup_scan id l = l.filter fun x => decide (List.count x l = 1) := by
  intro l
  induction l using q_delete_dup_scan.induct id with
  | case1 => intro _; simp [q_delete_dup_scan]
  | case2 a rest hemp ih =>
      intro hp
      simp only [id_eq] at hemp ih
      have hrun : rest.takeWhile (fun b => strcmp a b == 0) = [] :=
        List.isEmpty_iff.mp hemp
      have hd : rest.dropWhile (fun b => strcmp a b == 0) = rest := by
        have h := List.takeWhile_append_dropWhile (fun b => strcmp a b == 0) rest
        rwa [hrun, List.nil_append] at h
      simp only [hd] at ih
      have hane : ∀ x ∈ rest, a ≠ x := by
        intro x hx h
        have hlt := dropWhile_dup_lt hp x (by rw [hd]; exact hx)
        rw [← h, strcmp_self] at hlt
        omega
      rw [scan_cons_eq, if_pos hemp, hd, ih (List.pairwise_cons.mp hp).2]
      exact (filter_count_cons hane).symm
  | case3 a rest hemp ih =>
      intro hp
      simp only [id_eq] at hemp ih
      have hpd : List.Pairwise (fun A B => strcmp A B ≤ 0)
          (rest.dropWhile (fun b => strcmp a b == 0)) :=
        hp.sublist ((List.dropWhile_sublist _).trans (List.sublist_cons_self a rest))
      rw [scan_cons_eq, if_neg hemp, ih hpd]
      have hl : a :: rest =
          (a :: rest.takeWhile (fun b => strcmp a b == 0)) ++
            rest.dropWhile (fun b => strcmp a b == 0) := by
        rw [List.cons_append, List.takeWhile_append_dropWhile]
      rw [hl]
      refine (filter_count_split (fun x hx => takeWhile_dup_eq x hx) ?_ ?_).symm
      · simpa [List.isEmpty_iff] using hemp
      · intro x hx h
        have hlt := dropWhile_dup_lt hp x hx
        rw [← h, strcmp_self] at hlt
        omega

/-- C3.  On a queue whose payloads are sorted ascending, `q_delete_dup`
returns `true` and keeps exactly the elements whose payload occurs once
(an entire run of two or more byte-equal payloads is removed, its first
element included); it returns `false` exactly on a NULL handle, and an
empty queue yields `true` with no change.  In particular the sorted
queue `["1","1","2","3","3","3","4"]` becomes `["2","4"]`. -/
theorem q_delete_dup_correct (l : List CStr)
    (hs : List.Chain' (fun A B => strcmp A B ≤ 0) l) :
    q_delete_dup (some l) =
        (true, some (l.filter fun x => decide (List.count x l = 1))) ∧
    (∀ q : Option (List CStr), (q_delete_dup q).1 = false ↔ q = none) ∧
    q_delete_dup none = (false, none) ∧
    q_delete_dup (some ([] : List CStr)) = (true, some []) ∧
    q_delete_dup (some [[49], [49], [50], [51], [51], [51], [52]]) =
      (true, some [[50], [52]]) := by
  refine ⟨?_, ?_, rfl, ?_, ?_⟩
  · simp [q_delete_dup, q_delete_dup_scan_eq_filter l (chain'_strcmp_pairwise hs)]
  · intro q
    cases q <;> simp [q_delete_dup]
  · simp [q_delete_dup, q_delete_dup_scan]
  · have h := q_delete_dup_scan_eq_filter [[49], [49], [50], [51], [51], [51], [52]]
      (by norm_num [List.chain'_cons, List.chain'_singleton, strcmp])
    simp only [q_delete_dup, h]
    decide

/-- Closed instance of `q_delete_dup_correct` at the spec's example. -/
theorem q_delete_dup_correct_witness :
    q_delete_dup (some [[49], [49], [50], [51], [51], [51], [52]]) =
        (true, some ([[49], [49], [50], [51], [51], [51], [52]].filter
          fun x => decide (List.count x [[49], [49], [50], [51], [51], [51], [52]] = 1))) ∧
    (∀ q : Option (List CStr), (q_delete_dup q).1 = false ↔ q = none) ∧
    q_delete_dup none = (false, none) ∧
    q_delete_dup (some ([] : List CStr)) = (true, some []) ∧
    q_delete_dup (some [[49], [49], [50], [51], [51], [51], [52]]) =
      (true, some [[50], [52]]) :=
  q_delete_dup_correct [[49], [49], [50], [51], [51], [51], [52]]
    (by norm_num [List.chain'_cons, List.chain'_singleton, strcmp])

/-! ## `q_delete_mid` (`queue.c:189-206`)

Both cursors start at `head->next`; the fast cursor advances two links
per iteration while the slow advances one, until the fast cursor is the
sentinel or the node before it; the slow cursor then sits on the node
that gets unlinked and released, which is the node `fastSlowSteps l`
positions from the head. -/
def q_delete_mid : Option (List α) → Bool × Option (List α)
  | none => (false, none)
  | some [] => (false, some [])
  | some l => (true, some (l.eraseIdx (fastSlowSteps l)))

/-- C4.  On a non-empty queue of `n` elements `q_delete_mid` returns
`true` and deletes exactly the element at zero-based index `⌊n/2⌋`,
keeping the remaining elements in their original relative order; a NULL
or empty queue yields `false` and no change. -/
theorem q_delete_mid_correct (l : List α) (hne : l ≠ []) :
    q_delete_mid (some l) =
      (true, some (l.take (l.length / 2) ++ l.drop (l.length / 2 + 1))) ∧
    q_delete_mid (none : Option (List α)) = (false, none) ∧
    q_delete_mid (some ([] : List α)) = (false, some []) := by
  refine ⟨?_, rfl, rfl⟩
  match l, hne with
  | a :: t, _ =>
      show (true, some ((a :: t).eraseIdx (fastSlowSteps (a :: t)))) = _
      rw [fastSlowSteps_eq, List.eraseIdx_eq_take_drop_succ]

/-- Closed instance of `q_delete_mid_correct` on a three-element queue. -/
theorem q_delete_mid_correct_witness :
    q_delete_mid (some [[97], [98], [99]]) =
      (true, some ([[97], [98], [99]].take ([[97], [98], [99]].length / 2) ++
        [[97], [98], [99]].drop ([[97], [98], [99]].length / 2 + 1))) ∧
    q_delete_mid (none : Option (List CStr)) = (false, none) ∧
    q_delete_mid (some ([] : List CStr)) = (false, some []) :=
  q_delete_mid_correct [[97], [98], [99]] (by decide)

/-- C5 counterexample: on the six-element queue `[a,b,c,d,e,f]` the
fast/slow scan stops with the slow cursor on the fourth element `d`
(zero-based index 3 = ⌊6/2⌋), so `d` is deleted and `c` survives; the
result is `[a,b,c,e,f]`, not the claimed `[a,b,d,e,f]`. -/
theorem q_delete_mid_six_counterexample :
    q_delete_mid (some [[97], [98], [99], [100], [101], [102]]) =
      (true, some [[97], [98], [99], [101], [102]]) ∧
    some [[97], [98], [99], [101], [102]] ≠
      some [[97], [98], [100], [101], [102]] := by
  exact ⟨by decide, by decide⟩

/-- C5 (amended): deleting the middle of the six-element queue
`[a,b,c,d,e,f]` removes the element at index `⌊6/2⌋ = 3` (`d`), leaving
`[a,b,c,e,f]`. -/
theorem q_delete_mid_six :
    q_delete_mid (some [[97], [98], [99], [100], [101], [102]]) =
      (true, some [[97], [98], [99], [101], [102]]) := by
  decide

/-! ## `q_swap` (`queue.c:258-271`)

The loop takes the cursor node, unlinks it, and re-inserts it
immediately after its old successor, then jumps past the pair; a
trailing unpaired node is left alone. -/
def q_swap_pairs : List α → List α
  | a :: b :: r => b :: a :: q_swap_pairs r
  | l => l

def q_swap : Option (List α) → Option (List α)
  | none => none
  | some l => some (q_swap_pairs l)

theorem q_swap_pairs_pair : ∀ (l : List α) (k : Nat), 2 * k + 1 < l.length →
    (q_swap_pairs l)[2 * k]? = l[2 * k + 1]? ∧
    (q_swap_pairs l)[2 * k + 1]? = l[2 * k]?
  | [], k, h => by simp at h
  | [a], k, h => by simp at h
  | a :: b :: r, 0, _ => by simp [q_swap_pairs]
  | a :: b :: r, (k + 1), h => by
      have ih := q_swap_pairs_pair r k (by simp at h; omega)
      have e1 : 2 * (k + 1) = 2 * k + 1 + 1 := by ring
      show ((b :: a :: q_swap_pairs r)[2 * (k+1)]? = _) ∧
        ((b :: a :: q_swap_pairs r)[2 * (k+1) + 1]? = _)
      rw [e1]
      simpa using ih

theorem q_swap_pairs_trailing : ∀ l : List α, l.length % 2 = 1 →
    (q_swap_pairs l)[l.length - 1]? = l[l.length - 1]?
  | [], h => by simp at h
  | [a], _ => rfl
  | a :: b :: r, h => by
      have hr : r.length % 2 = 1 := by simp at h; omega
      have hrpos : 1 ≤ r.length := by omega
      have ih := q_swap_pairs_trailing r hr
      show (b :: a :: q_swap_pairs r)[(a :: b :: r).length - 1]? = _
      have e : (a :: b :: r).length - 1 = (r.length - 1) + 1 + 1 := by
        simp; omega
      rw [e]
      simpa using ih

theorem q_swap_pairs_perm : ∀ l : List α, (q_swap_pairs l).Perm l
  | [] => List.Perm.refl _
  | [_] => List.Perm.refl _
  | a :: b :: r =>
      ((((q_swap_pairs_perm r).cons a).cons b)).trans (List.Perm.swap a b r)

/-- C7.  `q_swap` exchanges the 1st and 2nd, 3rd and 4th, … elements,
leaves an unpaired trailing element in place, is a no-op on a NULL,
empty or single-element queue, preserves the multiset of elements (no
payload is created, destroyed or altered — the very same elements are
rearranged), and sends `[1,2,3,4,5]` to `[2,1,4,3,5]`. -/
theorem q_swap_correct (l : List α) :
    q_swap (none : Option (List α)) = none ∧
    q_swap (some l) = some (q_swap_pairs l) ∧
    (∀ k, 2 * k + 1 < l.length →
      (q_swap_pairs l)[2 * k]? = l[2 * k + 1]? ∧
      (q_swap_pairs l)[2 * k + 1]? = l[2 * k]?) ∧
    (l.length % 2 = 1 → (q_swap_pairs l)[l.length - 1]? = l[l.length - 1]?) ∧
    (l.length ≤ 1 → q_swap_pairs l = l) ∧
    (q_swap_pairs l).Perm l ∧
    q_swap (some [[49], [50], [51], [52], [53]]) =
      some [[50], [49], [52], [51], [53]] := by
  refine ⟨rfl, rfl, q_swap_pairs_pair l, q_swap_pairs_trailing l, ?_,
    q_swap_pairs_perm l, by decide⟩
  intro hlen
  match l, hlen with
  | [], _ => rfl
  | [a], _ => rfl

/-! ## `q_insert_head` / `q_insert_tail` (`queue.c:52-101`)

Allocation is modelled by two oracles: `nodeAlloc` tells whether
`malloc(sizeof(element_t))` succeeds and `strAlloc` whether `strdup(s)`
succeeds.  Each call returns `(success, queue', allocated, freed)`
where `allocated`/`freed` count the heap blocks (node or string buffer)
obtained and released during the call: a failing `malloc` allocates
nothing; a failing `strdup` leaves the node allocated and
`q_release_element` then frees it (plus `free(NULL)` for the string,
a no-op); on success the node and the copied string (whose bytes equal
`s`, since `strdup` copies them) stay live, owned by the queue. -/
def q_insert_head (nodeAlloc strAlloc : Bool) (q : Option (List CStr)) (s : CStr) :
    Bool × Option (List CStr) × Nat × Nat :=
  match q with
  | none => (false, none, 0, 0)
  | some l =>
      if !nodeAlloc then (false, some l, 0, 0)
      else if !strAlloc then (false, some l, 1, 1)
      else (true, some (s :: l), 2, 0)

/-- `q_insert_tail`: identical to `q_insert_head` except the new element
is linked as the sentinel's immediate predecessor (`list_add_tail`). -/
def q_insert_tail (nodeAlloc strAlloc : Bool) (q : Option (List CStr)) (s : CStr) :
    Bool × Option (List CStr) × Nat × Nat :=
  match q with
  | none => (false, none, 0, 0)
  | some l =>
      if !nodeAlloc then (false, some l, 0, 0)
      else if !strAlloc then (false, some l, 1, 1)
      else (true, some (l ++ [s]), 2, 0)

/-- C9.  `q_insert_head`/`q_insert_tail` return `false` exactly when the
handle is NULL or one of the two allocations fails; on failure the queue
is unchanged and every allocated block has been freed again (no leak);
on success exactly one element holding the byte-exact copy of the
payload is linked at the head (resp. tail). -/
theorem q_insert_correct (nodeAlloc strAlloc : Bool) (q : Option (List CStr)) (s : CStr) :
    ((q_insert_head nodeAlloc strAlloc q s).1 = false ↔
        q = none ∨ nodeAlloc = false ∨ strAlloc = false) ∧
    ((q_insert_tail nodeAlloc strAlloc q s).1 = false ↔
        q = none ∨ nodeAlloc = false ∨ strAlloc = false) ∧
    ((q_insert_head nodeAlloc strAlloc q s).1 = false →
        (q_insert_head nodeAlloc strAlloc q s).2.1 = q ∧
        (q_insert_head nodeAlloc strAlloc q s).2.2.1 =
          (q_insert_head nodeAlloc strAlloc q s).2.2.2) ∧
    ((q_insert_tail nodeAlloc strAlloc q s).1 = false →
        (q_insert_tail nodeAlloc strAlloc q s).2.1 = q ∧
        (q_insert_tail nodeAlloc strAlloc q s).2.2.1 =
          (q_insert_tail nodeAlloc strAlloc q s).2.2.2) ∧
    (∀ l, q = some l → nodeAlloc = true → strAlloc = true →
        q_insert_head nodeAlloc strAlloc q s = (true, some (s :: l), 2, 0)) ∧
    (∀ l, q = some l → nodeAlloc = true → strAlloc = true →
        q_insert_tail nodeAlloc strAlloc q s = (true, some (l ++ [s]), 2, 0)) := by
  cases q <;> cases nodeAlloc <;> cases strAlloc <;>
    simp [q_insert_head, q_insert_tail]

/-! ## `q_remove_head` / `q_remove_tail` (`queue.c:117-151`)

When an element is removed and `sp` is non-NULL the code runs
`strncpy(sp, e->value, bufsize - 1)` and then stores the NUL terminator
at `sp[bufsize - 1]`.  `bufsize` is a `size_t`, so
`bufsize - 1` is computed modulo `2^64`. -/
def W64 : Nat := 18446744073709551616

/-- The value of the `size_t` expression `bufsize - 1`. -/
def bufCap (bufsize : Nat) : Nat := (bufsize + (W64 - 1)) % W64

/-- The set of buffer indices written by the copy: `strncpy` writes
exactly `bufsize - 1` bytes (payload bytes then zero padding), indices
`0 .. bufsize-2`, and the explicit terminator store writes index
`bufsize - 1`. -/
def removeWrites (bufsize : Nat) : Nat → Prop := fun i => i ≤ bufCap bufsize

/-- `strncpy(sp, v, n)`: copies the bytes of `v` and pads with NUL up to
exactly `n` bytes written. -/
def strncpy_model (sp : Nat → Nat) (v : CStr) (n : Nat) : Nat → Nat :=
  fun i => if i < n then v.getD i 0 else sp i

/-- `q_remove_head` (`queue.c:117-131`): NULL on a NULL or empty queue;
otherwise unlink the first element, fill the caller buffer when present,
and hand the element to the caller. -/
def q_remove_head (q : Option (List CStr)) (spPresent : Bool) (bufsize : Nat)
    (sp : Nat → Nat) : Option CStr × Option (List CStr) × (Nat → Nat) :=
  match q with
  | none => (none, none, sp)
  | some [] => (none, some [], sp)
  | some (a :: t) =>
      (some a, some t,
        if spPresent then
          fun i => if i = bufCap bufsize then 0
                   else strncpy_model sp a (bufCap bufsize) i
        else sp)

/-- `q_remove_tail` (`queue.c:137-151`): same, on the last element. -/
def q_remove_tail (q : Option (List CStr)) (spPresent : Bool) (bufsize : Nat)
    (sp : Nat → Nat) : Option CStr × Option (List CStr) × (Nat → Nat) :=
  match q with
  | none => (none, none, sp)
  | some [] => (none, some [], sp)
  | some (a :: t) =>
      ((a :: t).getLast?, some ((a :: t).dropLast),
        if spPresent then
          fun i => if i = bufCap bufsize then 0
                   else strncpy_model sp ((a :: t).getLast (by simp)) (bufCap bufsize) i
        else sp)

/-- C10.  The copy in `q_remove_head`/`q_remove_tail` writes buffer
indices `0 .. bufsize-1` where `bufsize - 1` is `size_t` arithmetic:
for `bufsize = 0` the index wraps to `2^64 - 1` and falls outside any
buffer of `bufsize` bytes, so the writes stay inside the buffer exactly
under the unstated precondition `1 ≤ bufsize`; under it, `sp` receives
the first `min(strlen(payload), bufsize-1)` payload bytes followed by a
NUL terminator.  A NULL or empty queue, or a NULL `sp`, leaves the
buffer untouched. -/
theorem q_remove_buffer_correct (a : CStr) (t : List CStr) (bufsize : Nat)
    (sp : Nat → Nat) (hbs : bufsize < W64) :
    (bufsize = 0 → bufCap bufsize = W64 - 1 ∧
      removeWrites bufsize (W64 - 1) ∧ ¬(W64 - 1 < bufsize)) ∧
    (1 ≤ bufsize → bufCap bufsize = bufsize - 1 ∧
      ∀ i, removeWrites bufsize i → i < bufsize) ∧
    (q_remove_head (some (a :: t)) true bufsize sp).1 = some a ∧
    (q_remove_head (some (a :: t)) true bufsize sp).2.1 = some t ∧
    (∀ i, i < min a.length (bufCap bufsize) →
      (q_remove_head (some (a :: t)) true bufsize sp).2.2 i = a.getD i 0) ∧
    (1 ≤ bufsize →
      (q_remove_head (some (a :: t)) true bufsize sp).2.2
        (min a.length (bufCap bufsize)) = 0) ∧
    (q_remove_tail (some (a :: t)) true bufsize sp).1 =
      some ((a :: t).getLast (List.cons_ne_nil a t)) ∧
    (q_remove_tail (some (a :: t)) true bufsize sp).2.1 =
      some (a :: t).dropLast ∧
    (∀ i, i < min ((a :: t).getLast (List.cons_ne_nil a t)).length (bufCap bufsize) →
      (q_remove_tail (some (a :: t)) true bufsize sp).2.2 i =
        ((a :: t).getLast (List.cons_ne_nil a t)).getD i 0) ∧
    (1 ≤ bufsize →
      (q_remove_tail (some (a :: t)) true bufsize sp).2.2
        (min ((a :: t).getLast (List.cons_ne_nil a t)).length (bufCap bufsize)) = 0) ∧
    q_remove_head (none : Option (List CStr)) true bufsize sp = (none, none, sp) ∧
    q_remove_head (some ([] : List CStr)) true bufsize sp = (none, some [], sp) ∧
    q_remove_head (some (a :: t)) false bufsize sp = (some a, some t, sp) := by
  have hcap1 : 1 ≤ bufsize → bufCap bufsize = bufsize - 1 := by
    intro h
    simp only [bufCap, W64] at *
    omega
  refine ⟨?_, ?_, rfl, rfl, ?_, ?_, ?_, rfl, ?_, ?_, rfl, rfl, rfl⟩
  · intro h
    subst h
    refine ⟨by simp [bufCap, W64], ?_, by simp⟩
    simp [removeWrites, bufCap, W64]
  · intro h
    refine ⟨hcap1 h, ?_⟩
    intro i hi
    rw [removeWrites, hcap1 h] at hi
    omega
  · intro i hi
    have hlt : i < bufCap bufsize := lt_of_lt_of_le hi (min_le_right _ _)
    simp only [q_remove_head, if_true, strncpy_model]
    rw [if_neg (Nat.ne_of_lt hlt), if_pos hlt]
  · intro hb1
    by_cases hml : a.length < bufCap bufsize
    · have hmin : min a.length (bufCap bufsize) = a.length :=
        min_eq_left (le_of_lt hml)
      simp only [q_remove_head, if_true, strncpy_model, hmin]
      rw [if_neg (Nat.ne_of_lt hml), if_pos hml,
        List.getD_eq_default a 0 (le_refl a.length)]
    · have hmin : min a.length (bufCap bufsize) = bufCap bufsize :=
        min_eq_right (Nat.le_of_not_lt hml)
      simp only [q_remove_head, if_true, hmin]
  · simp only [q_remove_tail]
    exact List.getLast?_eq_getLast _ _
  · intro i hi
    have hlt : i < bufCap bufsize := lt_of_lt_of_le hi (min_le_right _ _)
    simp only [q_remove_tail, if_true, strncpy_model]
    rw [if_neg (Nat.ne_of_lt hlt), if_pos hlt]
  · intro hb1
    by_cases hml : ((a :: t).getLast (List.cons_ne_nil a t)).length < bufCap bufsize
    · have hmin : min ((a :: t).getLast (List.cons_ne_nil a t)).length
          (bufCap bufsize) = ((a :: t).getLast (List.cons_ne_nil a t)).length :=
        min_eq_left (le_of_lt hml)
      simp only [q_remove_tail, if_true, strncpy_model, hmin]
      rw [if_neg (Nat.ne_of_lt hml), if_pos hml,
        List.getD_eq_default _ 0 (le_refl _)]
    · have hmin : min ((a :: t).getLast (List.cons_ne_nil a t)).length
          (bufCap bufsize) = bufCap bufsize :=
        min_eq_right (Nat.le_of_not_lt hml)
      simp only [q_remove_tail, if_true, hmin]

/-- Closed instance of `q_remove_buffer_correct`: payload `"ab"`,
buffer size 2, so the writes stay inside the two-byte buffer. -/
theorem q_remove_buffer_correct_witness :
    2 < W64 ∧ (bufCap 2 = 2 - 1 ∧ ∀ i, removeWrites 2 i → i < 2) :=
  ⟨by decide,
    (q_remove_buffer_correct [97, 98] [] 2 (fun _ => 7) (by decide)).2.1 (by decide)⟩

/-! ## Pointer-level model of the ring

To settle the structural (ring-invariant) claims we model the memory
holding the `struct list_head` cells: a `Heap` maps node addresses
(`Nat`, with `0` playing the role of `NULL`) to the `next` and `prev`
fields and to the payload of the element embedding the node.  A queue
in a valid state is a heap together with the sentinel address `hd` and
the list `ns` of element addresses in ring order. -/

structure Heap where
  nxt : Nat → Nat
  prv : Nat → Nat
  val : Nat → CStr

/-- Store to `p->next`. -/
def Heap.setNxt (h : Heap) (p q : Nat) : Heap :=
  { h with nxt := fun x => if x = p then q else h.nxt x }

/-- Store to `p->prev`. -/
def Heap.setPrv (h : Heap) (p q : Nat) : Heap :=
  { h with prv := fun x => if x = p then q else h.prv x }

/-- Store to the payload pointer of the element at `p` (used by the
insertion operations after `strdup`). -/
def Heap.setVal (h : Heap) (p : Nat) (s : CStr) : Heap :=
  { h with val := fun x => if x = p then s else h.val x }

@[simp] theorem Heap.nxt_setNxt (h : Heap) (p q x : Nat) :
    (h.setNxt p q).nxt x = if x = p then q else h.nxt x := rfl
@[simp] theorem Heap.prv_setNxt (h : Heap) (p q : Nat) :
    (h.setNxt p q).prv = h.prv := rfl
@[simp] theorem Heap.val_setNxt (h : Heap) (p q : Nat) :
    (h.setNxt p q).val = h.val := rfl
@[simp] theorem Heap.prv_setPrv (h : Heap) (p q x : Nat) :
    (h.setPrv p q).prv x = if x = p then q else h.prv x := rfl
@[simp] theorem Heap.nxt_setPrv (h : Heap) (p q : Nat) :
    (h.setPrv p q).nxt = h.nxt := rfl
@[simp] theorem Heap.val_setPrv (h : Heap) (p q : Nat) :
    (h.setPrv p q).val = h.val := rfl
@[simp] theorem Heap.val_setVal (h : Heap) (p : Nat) (s : CStr) (x : Nat) :
    (h.setVal p s).val x = if x = p then s else h.val x := rfl
@[simp] theorem Heap.nxt_setVal (h : Heap) (p : Nat) (s : CStr) :
    (h.setVal p s).nxt = h.nxt := rfl
@[simp] theorem Heap.prv_setVal (h : Heap) (p : Nat) (s : CStr) :
    (h.setVal p s).prv = h.prv := rfl

/-- The adjacency relation of a well-linked pair: `p->next == q` and
`q->prev == p`. -/
def edge (h : Heap) (p q : Nat) : Prop := h.nxt p = q ∧ h.prv q = p

/-- The ring invariants of §3 of the spec, for a queue with sentinel
`hd` and elements `ns` in head-to-tail order: all addresses are
distinct and non-NULL, and walking `hd :: ns` and back to `hd` every
adjacent pair is a well-linked `edge`.  `Nodup` makes the `next` walk
from the sentinel visit every element exactly once before returning to
the sentinel (`isRing_walkNext` below), and symmetrically for `prev`. -/
def isRing (h : Heap) (hd : Nat) (ns : List Nat) : Prop :=
  (hd :: ns).Nodup ∧ (∀ n ∈ hd :: ns, n ≠ 0) ∧
  List.Chain (edge h) hd (ns ++ [hd])

/-! Generic lemmas about `List.Chain` used to re-link rings. -/

theorem chain_congr_mem {R S : Nat → Nat → Prop} :
    ∀ {a : Nat} {l : List Nat},
      (∀ p q, p ∈ a :: l → q ∈ a :: l → R p q → S p q) →
      List.Chain R a l → List.Chain S a l := by
  intro a l
  induction l generalizing a with
  | nil => intro _ _; exact List.Chain.nil
  | cons b t ih =>
      intro hag hc
      rcases List.chain_cons.mp hc with ⟨hab, hct⟩
      refine List.chain_cons.mpr ⟨hag a b (by simp) (by simp) hab, ?_⟩
      exact ih (fun p q hp hq => hag p q (by simp [List.mem_cons] at hp ⊢; tauto)
        (by simp [List.mem_cons] at hq ⊢; tauto)) hct

theorem chain_of_append_left {R : Nat → Nat → Prop} :
    ∀ {a : Nat} {l l' : List Nat}, List.Chain R a (l ++ l') → List.Chain R a l := by
  intro a l
  induction l generalizing a with
  | nil => intro l' _; exact List.Chain.nil
  | cons b t ih =>
      intro l' hc
      rcases List.chain_cons.mp hc with ⟨hab, hct⟩
      exact List.chain_cons.mpr ⟨hab, ih hct⟩

theorem chain_last_edge {R : Nat → Nat → Prop} :
    ∀ {a : Nat} {l : List Nat} {n : Nat}, List.Chain R a (l ++ [n]) →
      R ((a :: l).getLast (by simp)) n := by
  intro a l
  induction l generalizing a with
  | nil => intro n hc; simpa using hc
  | cons b t ih =>
      intro n hc
      rcases List.chain_cons.mp hc with ⟨hab, hct⟩
      simpa [List.getLast_cons] using ih hct

theorem chain_replace_last {R S : Nat → Nat → Prop} :
    ∀ {a : Nat} {l : List Nat} {n c : Nat},
      List.Chain R a (l ++ [n]) →
      (∀ p q, p ∈ a :: l → q ∈ a :: l → R p q → S p q) →
      S ((a :: l).getLast (by simp)) c →
      List.Chain S a (l ++ [c]) := by
  intro a l
  induction l generalizing a with
  | nil => intro n c _ _ hS; exact List.chain_cons.mpr ⟨by simpa using hS, List.Chain.nil⟩
  | cons b t ih =>
      intro n c hc hag hS
      rcases List.chain_cons.mp hc with ⟨hab, hct⟩
      refine List.chain_cons.mpr ⟨hag a b (by simp) (by simp) hab, ?_⟩
      refine ih hct (fun p q hp hq => hag p q (by simp [List.mem_cons] at hp ⊢; tauto)
        (by simp [List.mem_cons] at hq ⊢; tauto)) ?_
      simpa [List.getLast_cons] using hS

theorem chain_congr_adj {R S : Nat → Nat → Prop} :
    ∀ {a : Nat} {l : List Nat},
      (∀ p q, p ∈ a :: l.dropLast → q ∈ l → R p q → S p q) →
      List.Chain R a l → List.Chain S a l := by
  intro a l
  induction l generalizing a with
  | nil => intro _ _; exact List.Chain.nil
  | cons b t ih =>
      intro hag hc
      rcases List.chain_cons.mp hc with ⟨hab, hct⟩
      refine List.chain_cons.mpr ⟨hag a b (by simp) (by simp) hab, ?_⟩
      cases t with
      | nil => exact List.Chain.nil
      | cons u t' =>
          refine ih (fun p q hp hq => hag p q ?_ (by simp [List.mem_cons] at hq ⊢; tauto)) hct
          simp [List.dropLast] at hp ⊢
          tauto

theorem chain_snoc {S : Nat → Nat → Prop} :
    ∀ {a : Nat} {l : List Nat} {c : Nat}, List.Chain S a l →
      S ((a :: l).getLast (by simp)) c → List.Chain S a (l ++ [c]) := by
  intro a l
  induction l generalizing a with
  | nil => intro c _ hS; exact List.chain_cons.mpr ⟨by simpa using hS, List.Chain.nil⟩
  | cons b t ih =>
      intro c hc hS
      rcases List.chain_cons.mp hc with ⟨hab, hct⟩
      refine List.chain_cons.mpr ⟨hab, ih hct ?_⟩
      simpa [List.getLast_cons] using hS

theorem chain_head_edge {R : Nat → Nat → Prop} {x : Nat} {l : List Nat}
    (hne : l ≠ []) (hc : List.Chain R x l) : R x l.headI := by
  cases l with
  | nil => exact absurd rfl hne
  | cons b t => exact (List.chain_cons.mp hc).1

/-! ## The `list.h` primitives

Modelled from the spec: the `list.h` header of the repository is not
under `src/`; §3 of the spec pins down the ring discipline the
primitives maintain (closed cycle, `A.next == B ↔ B.prev == A`
symmetry, sentinel-based).  `list_add n p` links the node `n`
immediately after `p`; `list_add_tail n p` links `n` immediately before
`p`; `list_del n` unlinks `n` by making its neighbours point at each
other; `list_empty hd` tests `hd->next == hd`. -/

def list_add (h : Heap) (n p : Nat) : Heap :=
  (((h.setPrv (h.nxt p) n).setNxt n (h.nxt p)).setPrv n p).setNxt p n

def list_add_tail (h : Heap) (n p : Nat) : Heap :=
  (((h.setNxt (h.prv p) n).setPrv n (h.prv p)).setNxt n p).setPrv p n

def list_del (h : Heap) (n : Nat) : Heap :=
  (h.setPrv (h.nxt n) (h.prv n)).setNxt (h.prv n) (h.nxt n)

def list_empty (h : Heap) (hd : Nat) : Bool := h.nxt hd == hd

@[simp] theorem list_del_nxt (h : Heap) (n x : Nat) :
    (list_del h n).nxt x = if x = h.prv n then h.nxt n else h.nxt x := rfl
@[simp] theorem list_del_prv (h : Heap) (n x : Nat) :
    (list_del h n).prv x = if x = h.nxt n then h.prv n else h.prv x := rfl
@[simp] theorem list_del_val (h : Heap) (n : Nat) :
    (list_del h n).val = h.val := rfl
@[simp] theorem list_add_nxt (h : Heap) (n p x : Nat) :
    (list_add h n p).nxt x =
      if x = p then n else if x = n then h.nxt p else h.nxt x := rfl
@[simp] theorem list_add_prv (h : Heap) (n p x : Nat) :
    (list_add h n p).prv x =
      if x = n then p else if x = h.nxt p then n else h.prv x := rfl
@[simp] theorem list_add_val (h : Heap) (n p : Nat) :
    (list_add h n p).val = h.val := rfl
@[simp] theorem list_add_tail_nxt (h : Heap) (n p x : Nat) :
    (list_add_tail h n p).nxt x =
      if x = n then p else if x = h.prv p then n else h.nxt x := rfl
@[simp] theorem list_add_tail_prv (h : Heap) (n p x : Nat) :
    (list_add_tail h n p).prv x =
      if x = p then n else if x = n then h.prv p else h.prv x := rfl
@[simp] theorem list_add_tail_val (h : Heap) (n p : Nat) :
    (list_add_tail h n p).val = h.val := rfl

/-- Unlinking a node of a valid ring leaves a valid ring without it. -/
theorem ring_list_del {h : Heap} {hd n : Nat} {as bs : List Nat}
    (hr : isRing h hd (as ++ n :: bs)) :
    isRing (list_del h n) hd (as ++ bs) := by
  obtain ⟨hnd, hnz, hch⟩ := hr
  have htl : (as ++ n :: bs).Nodup := (List.nodup_cons.mp hnd).2
  have hhd : hd ∉ as ++ n :: bs := (List.nodup_cons.mp hnd).1
  have hmid := List.nodup_middle.mp htl
  have hnmem : n ∉ as ++ bs := (List.nodup_cons.mp hmid).1
  have hndab : (as ++ bs).Nodup := (List.nodup_cons.mp hmid).2
  have hch' : List.Chain (edge h) hd (as ++ n :: (bs ++ [hd])) := by
    simpa [List.append_assoc] using hch
  rcases List.chain_split.mp hch' with ⟨h1, h2⟩
  have hPn : edge h ((hd :: as).getLast (by simp)) n := chain_last_edge h1
  have hPmem : (hd :: as).getLast (by simp) ∈ hd :: as := List.getLast_mem _
  have hnc : edge h n (bs ++ [hd]).headI := chain_head_edge (by simp) h2
  -- agreement on the prefix edges
  have agree1 : ∀ p q, p ∈ hd :: as.dropLast → q ∈ as →
      edge h p q → edge (list_del h n) p q := by
    intro p q hp hq he
    have hqn : q ≠ n := by
      intro hEq
      subst hEq
      exact hnmem (List.mem_append.mpr (Or.inl hq))
    have hpP : p ≠ h.prv n := by
      intro hEq
      rw [hPn.2] at hEq
      rw [hEq] at he
      exact hqn (hPn.1 ▸ he.1).symm
    have hqc : q ≠ h.nxt n := by
      intro hEq
      rw [hnc.1] at hEq
      rw [hEq] at he
      have : n = p := hnc.2 ▸ he.2
      have hpmem : p ∈ hd :: as := by
        rcases List.mem_cons.mp hp with h' | h'
        · simp [h']
        · exact List.mem_cons.mpr (Or.inr (List.dropLast_sublist as |>.mem h'))
      rw [← this] at hpmem
      rcases List.mem_cons.mp hpmem with h' | h'
      · exact (List.nodup_cons.mp hnd).1 (h' ▸ List.mem_append.mpr
          (Or.inr (List.mem_cons_self n bs)))
      · exact (List.nodup_cons.mp hmid).1 (List.mem_append.mpr (Or.inl h'))
    exact ⟨by rw [list_del_nxt, if_neg hpP]; exact he.1,
      by rw [list_del_prv, if_neg hqc]; exact he.2⟩
  -- the repaired edge P → c
  have hnew : edge (list_del h n) ((hd :: as).getLast (by simp)) (bs ++ [hd]).headI := by
    constructor
    · rw [list_del_nxt, if_pos hPn.2.symm]
      exact hnc.1
    · rw [list_del_prv, if_pos hnc.1.symm]
      exact hPn.2
  have c1 : List.Chain (edge (list_del h n)) hd (as ++ [(bs ++ [hd]).headI]) :=
    chain_snoc (chain_congr_adj agree1 (chain_of_append_left h1)) hnew
  refine ⟨?_, ?_, ?_⟩
  · exact List.nodup_cons.mpr ⟨fun hmem => hhd (by
      rcases List.mem_append.mp hmem with h' | h'
      · exact List.mem_append.mpr (Or.inl h')
      · exact List.mem_append.mpr (Or.inr (List.mem_cons_of_mem n h'))), hndab⟩
  · intro x hx
    refine hnz x ?_
    rcases List.mem_cons.mp hx with h' | h'
    · simp [h']
    · rcases List.mem_append.mp h' with h'' | h''
      · exact List.mem_cons_of_mem hd (List.mem_append.mpr (Or.inl h''))
      · exact List.mem_cons_of_mem hd (List.mem_append.mpr
          (Or.inr (List.mem_cons_of_mem n h'')))
  · cases bs with
    | nil => simpa using c1
    | cons c' bs' =>
        have hc2 : List.Chain (edge h) c' (bs' ++ [hd]) := by
          have := List.chain_cons.mp (by simpa using h2)
          exact this.2
        have agree2 : ∀ p q, p ∈ c' :: (bs' ++ [hd]).dropLast → q ∈ bs' ++ [hd] →
            edge h p q → edge (list_del h n) p q := by
          intro p q hp hq he
          rw [List.dropLast_concat] at hp
          have hpbs : p ∈ c' :: bs' := hp
          have hpP : p ≠ h.prv n := by
            intro hEq
            rw [hPn.2] at hEq
            have : p ∈ as ++ n :: (c' :: bs') := List.mem_append.mpr (Or.inr
              (List.mem_cons_of_mem n hpbs))
            rcases List.mem_cons.mp (hEq ▸ hPmem) with h' | h'
            · exact hhd (h' ▸ this)
            · have hdisj : as.Disjoint (n :: c' :: bs') :=
                List.disjoint_of_nodup_append htl
              exact hdisj (hEq ▸ h') (List.mem_cons_of_mem n hpbs)
          have hqc : q ≠ h.nxt n := by
            intro hEq
            have hcc : ((c' :: bs') ++ [hd]).headI = c' := by simp
            rw [hnc.1, hcc] at hEq
            have hbs : (c' :: bs').Nodup := hndab.of_append_right
            rcases List.mem_append.mp hq with h' | h'
            · rw [hEq] at h'
              exact (List.nodup_cons.mp hbs).1 h'
            · have hch : c' = hd := by rw [← hEq]; simpa using h'
              exact hhd (hch ▸ List.mem_append.mpr
                (Or.inr (List.mem_cons_of_mem n (List.mem_cons_self c' bs'))))
          exact ⟨by rw [list_del_nxt, if_neg hpP]; exact he.1,
            by rw [list_del_prv, if_neg hqc]; exact he.2⟩
        have c2 : List.Chain (edge (list_del h n)) c' (bs' ++ [hd]) :=
          chain_congr_adj agree2 hc2
        have : List.Chain (edge (list_del h n)) hd (as ++ c' :: (bs' ++ [hd])) :=
          List.chain_split.mpr ⟨by simpa using c1, c2⟩
        simpa [List.append_assoc] using this

/-- Linking a fresh node `n` right after the last node of `hd :: as`
(the sentinel itself when `as = []`, as in `q_insert_head`) yields the
ring with `n` spliced between `as` and `bs`. -/
theorem ring_list_add {h : Heap} {hd n : Nat} {as bs : List Nat}
    (hr : isRing h hd (as ++ bs)) (hn0 : n ≠ 0) (hfresh : n ∉ hd :: (as ++ bs)) :
    isRing (list_add h n ((hd :: as).getLast (by simp))) hd (as ++ n :: bs) := by
  obtain ⟨hnd, hnz, hch⟩ := hr
  have htl : (as ++ bs).Nodup := (List.nodup_cons.mp hnd).2
  have hhd : hd ∉ as ++ bs := (List.nodup_cons.mp hnd).1
  have hnhd : n ≠ hd := fun hEq => hfresh (by simp [hEq])
  have hnab : n ∉ as ++ bs := fun hEq => hfresh (List.mem_cons_of_mem hd hEq)
  obtain ⟨c, rest', hsplit⟩ : ∃ c rest', bs ++ [hd] = c :: rest' := by
    cases bs with
    | nil => exact ⟨hd, [], rfl⟩
    | cons x xs => exact ⟨x, xs ++ [hd], rfl⟩
  have hch' : List.Chain (edge h) hd (as ++ c :: rest') := by
    rw [← hsplit]
    simpa [List.append_assoc] using hch
  rcases List.chain_split.mp hch' with ⟨h1, h2⟩
  have hPc : edge h ((hd :: as).getLast (by simp)) c := chain_last_edge h1
  have hPmem : (hd :: as).getLast (by simp) ∈ hd :: as := List.getLast_mem _
  have hcbs : c ∈ bs ++ [hd] := by rw [hsplit]; simp
  have hnP : n ≠ (hd :: as).getLast (by simp) := by
    intro hEq
    rcases List.mem_cons.mp (hEq ▸ hPmem) with h' | h'
    · exact hnhd h'
    · exact hnab (List.mem_append.mpr (Or.inl h'))
  -- agreement on the prefix edges of `as`
  have agree1 : ∀ p q, p ∈ hd :: as.dropLast → q ∈ as →
      edge h p q → edge (list_add h n ((hd :: as).getLast (by simp))) p q := by
    intro p q hp hq he
    have hqc : q ≠ c := by
      intro hEq
      rcases List.mem_append.mp hcbs with h' | h'
      · exact (List.disjoint_of_nodup_append htl) hq (show q ∈ bs by rw [hEq]; exact h')
      · have hqhd : q = hd := by rw [hEq]; simpa using h'
        exact hhd (hqhd ▸ List.mem_append.mpr (Or.inl hq))
    have hpP : p ≠ (hd :: as).getLast (by simp) := by
      intro hEq
      rw [hEq] at he
      exact hqc (hPc.1 ▸ he.1).symm
    have hpn : p ≠ n := by
      intro hEq
      rcases List.mem_cons.mp hp with h' | h'
      · exact hnhd (hEq.symm.trans h')
      · refine hnab (List.mem_append.mpr (Or.inl
          ((List.dropLast_sublist as).mem ?_)))
        rw [← hEq]
        exact h'
    have hqn : q ≠ n := fun hEq =>
      hnab (List.mem_append.mpr (Or.inl (hEq ▸ hq)))
    refine ⟨?_, ?_⟩
    · rw [list_add_nxt, if_neg hpP, if_neg hpn]
      exact he.1
    · rw [list_add_prv, if_neg hqn, if_neg (hPc.1 ▸ hqc)]
      exact he.2
  have hnewP : edge (list_add h n ((hd :: as).getLast (by simp)))
      ((hd :: as).getLast (by simp)) n := by
    refine ⟨?_, ?_⟩
    · rw [list_add_nxt, if_pos rfl]
    · rw [list_add_prv, if_pos rfl]
  have c1 : List.Chain (edge (list_add h n ((hd :: as).getLast (by simp))))
      hd (as ++ [n]) :=
    chain_snoc (chain_congr_adj agree1 (chain_of_append_left h1)) hnewP
  have hnewn : edge (list_add h n ((hd :: as).getLast (by simp))) n c := by
    refine ⟨?_, ?_⟩
    · rw [list_add_nxt, if_neg hnP, if_pos rfl]
      exact hPc.1
    · have hcn : c ≠ n := by
        intro hEq
        exact hnab (by
          rcases List.mem_append.mp hcbs with h' | h'
          · exact List.mem_append.mpr (Or.inr (hEq ▸ h'))
          · exact absurd (by simpa using h') (hEq ▸ hnhd))
      rw [list_add_prv, if_neg hcn, if_pos (hPc.1 ▸ rfl)]
  have c2 : List.Chain (edge (list_add h n ((hd :: as).getLast (by simp)))) c rest' := by
    refine chain_congr_adj ?_ h2
    intro p q hp hq he
    have hprest : p ∈ bs := by
      cases bs with
      | nil =>
          rw [show ([] : List Nat) ++ [hd] = [hd] from rfl] at hsplit
          rcases hsplit with ⟨⟩
          simp at hq
      | cons x xs =>
          have hcx : c = x ∧ rest' = xs ++ [hd] := by
            have := hsplit
            simp at this
            exact ⟨this.1.symm, this.2.symm⟩
          rcases hcx with ⟨rfl, rfl⟩
          rw [List.dropLast_concat] at hp
          exact hp
    have hqrest : q ∈ bs ++ [hd] := by
      rw [hsplit]
      exact List.mem_cons_of_mem c hq
    have hpP : p ≠ (hd :: as).getLast (by simp) := by
      intro hEq
      rcases List.mem_cons.mp (hEq ▸ hPmem) with h' | h'
      · exact hhd (h' ▸ List.mem_append.mpr (Or.inr hprest))
      · exact (List.disjoint_of_nodup_append htl) h' hprest
    have hpn : p ≠ n := fun hEq =>
      hnab (List.mem_append.mpr (Or.inr (hEq ▸ hprest)))
    have hqn : q ≠ n := by
      intro hEq
      rcases List.mem_append.mp (hEq ▸ hqrest) with h' | h'
      · exact hnab (List.mem_append.mpr (Or.inr h'))
      · exact hnhd (by simpa using h')
    have hqc : q ≠ c := by
      intro hEq
      have hcrest : c ∉ rest' := by
        have hnodup : (c :: rest').Nodup := by
          rw [← hsplit]
          refine List.Nodup.append ?_ ?_ ?_
          · exact htl.of_append_right
          · simp
          · intro x hx hx'
            simp at hx'
            exact hhd (hx' ▸ List.mem_append.mpr (Or.inr hx))
        exact (List.nodup_cons.mp hnodup).1
      exact hcrest (hEq ▸ hq)
    refine ⟨?_, ?_⟩
    · rw [list_add_nxt, if_neg hpP, if_neg hpn]
      exact he.1
    · rw [list_add_prv, if_neg hqn, if_neg (hPc.1 ▸ hqc)]
      exact he.2
  refine ⟨?_, ?_, ?_⟩
  · refine List.nodup_cons.mpr ⟨?_, ?_⟩
    · intro hmem
      rcases List.mem_append.mp hmem with h' | h'
      · exact hhd (List.mem_append.mpr (Or.inl h'))
      · rcases List.mem_cons.mp h' with h'' | h''
        · exact hnhd h''.symm
        · exact hhd (List.mem_append.mpr (Or.inr h''))
    · refine List.nodup_middle.mpr (List.nodup_cons.mpr ⟨hnab, htl⟩)
  · intro x hx
    rcases List.mem_cons.mp hx with h' | h'
    · exact hnz x (by simp [h'])
    · rcases List.mem_append.mp h' with h'' | h''
      · exact hnz x (List.mem_cons_of_mem hd (List.mem_append.mpr (Or.inl h'')))
      · rcases List.mem_cons.mp h'' with h3 | h3
        · exact h3 ▸ hn0
        · exact hnz x (List.mem_cons_of_mem hd (List.mem_append.mpr (Or.inr h3)))
  · have : List.Chain (edge (list_add h n ((hd :: as).getLast (by simp))))
        hd (as ++ n :: (c :: rest')) :=
      List.chain_split.mpr ⟨by simpa using c1,
        List.chain_cons.mpr ⟨hnewn, c2⟩⟩
    rw [← hsplit] at this
    simpa [List.append_assoc] using this

/-- Linking a fresh node `n` immediately before the sentinel
(`list_add_tail(n, head)`, as in `q_insert_tail`) appends it to the
ring. -/
theorem ring_list_add_tail {h : Heap} {hd n : Nat} {ns : List Nat}
    (hr : isRing h hd ns) (hn0 : n ≠ 0) (hfresh : n ∉ hd :: ns) :
    isRing (list_add_tail h n hd) hd (ns ++ [n]) := by
  obtain ⟨hnd, hnz, hch⟩ := hr
  have htl : ns.Nodup := (List.nodup_cons.mp hnd).2
  have hhd : hd ∉ ns := (List.nodup_cons.mp hnd).1
  have hnhd : n ≠ hd := fun hEq => hfresh (by simp [hEq])
  have hnns : n ∉ ns := fun hEq => hfresh (List.mem_cons_of_mem hd hEq)
  have hL : edge h ((hd :: ns).getLast (by simp)) hd := chain_last_edge hch
  have hLmem : (hd :: ns).getLast (by simp) ∈ hd :: ns := List.getLast_mem _
  have hLprv : h.prv hd = (hd :: ns).getLast (by simp) := hL.2
  -- preserved edges along `hd :: ns`
  have agree : ∀ p q, p ∈ hd :: ns.dropLast → q ∈ ns →
      edge h p q → edge (list_add_tail h n hd) p q := by
    intro p q hp hq he
    have hqhd : q ≠ hd := fun hEq => hhd (hEq ▸ hq)
    have hqn : q ≠ n := fun hEq => hnns (hEq ▸ hq)
    have hpn : p ≠ n := by
      intro hEq
      rcases List.mem_cons.mp hp with h' | h'
      · exact hnhd (hEq.symm.trans h')
      · refine hnns ((List.dropLast_sublist ns).mem ?_)
        rw [← hEq]
        exact h'
    have hpL : p ≠ h.prv hd := by
      intro hEq
      rw [hLprv] at hEq
      rw [hEq] at he
      exact hqhd (hL.1 ▸ he.1).symm
    refine ⟨?_, ?_⟩
    · rw [list_add_tail_nxt, if_neg hpn, if_neg hpL]
      exact he.1
    · rw [list_add_tail_prv, if_neg hqhd, if_neg hqn]
      exact he.2
  have hnewL : edge (list_add_tail h n hd) ((hd :: ns).getLast (by simp)) n := by
    have hLn : (hd :: ns).getLast (by simp) ≠ n := by
      intro hEq
      rcases List.mem_cons.mp (hEq ▸ hLmem) with h' | h'
      · exact hnhd h'
      · exact hnns h'
    refine ⟨?_, ?_⟩
    · rw [list_add_tail_nxt, if_neg hLn, if_pos hLprv.symm]
    · rw [list_add_tail_prv, if_neg hnhd, if_pos rfl]
      exact hLprv
  have hnewn : edge (list_add_tail h n hd) n hd := by
    refine ⟨?_, ?_⟩
    · rw [list_add_tail_nxt, if_pos rfl]
    · rw [list_add_tail_prv, if_pos rfl]
  refine ⟨?_, ?_, ?_⟩
  · refine List.nodup_cons.mpr ⟨?_, ?_⟩
    · intro hmem
      rcases List.mem_append.mp hmem with h' | h'
      · exact hhd h'
      · have hx : hd = n := by simpa using h'
        exact hnhd hx.symm
    · refine List.Nodup.append htl (by simp) ?_
      intro x hx hx'
      simp at hx'
      exact hnns (hx' ▸ hx)
  · intro x hx
    rcases List.mem_cons.mp hx with h' | h'
    · exact hnz x (by simp [h'])
    · rcases List.mem_append.mp h' with h'' | h''
      · exact hnz x (List.mem_cons_of_mem hd h'')
      · have hxn : x = n := by simpa using h''
        rw [hxn]
        exact hn0
  · have c1 : List.Chain (edge (list_add_tail h n hd)) hd (ns ++ [n]) :=
      chain_snoc (chain_congr_adj agree (chain_of_append_left hch)) hnewL
    have : List.Chain (edge (list_add_tail h n hd)) hd (ns ++ n :: [hd]) :=
      List.chain_split.mpr ⟨c1, List.chain_cons.mpr ⟨hnewn, List.Chain.nil⟩⟩
    simpa [List.append_assoc] using this

theorem ring_nxt_head {h : Heap} {hd n : Nat} {rest : List Nat}
    (hr : isRing h hd (n :: rest)) : h.nxt hd = n :=
  (List.chain_cons.mp hr.2.2).1.1

theorem ring_last_edge {h : Heap} {hd : Nat} {ns : List Nat}
    (hr : isRing h hd ns) : edge h ((hd :: ns).getLast (by simp)) hd :=
  chain_last_edge hr.2.2

theorem ring_empty_iff {h : Heap} {hd : Nat} {ns : List Nat}
    (hr : isRing h hd ns) : h.nxt hd = hd ↔ ns = [] := by
  constructor
  · intro hEq
    cases ns with
    | nil => rfl
    | cons n rest =>
        have h1 : h.nxt hd = n := ring_nxt_head hr
        have : hd = n := by rw [← hEq, h1]
        exact absurd (this ▸ List.mem_cons_self n rest)
          (List.nodup_cons.mp hr.1).1
  · intro hEq
    subst hEq
    exact (List.chain_cons.mp hr.2.2).1.1

theorem ring_hd_ne_zero {h : Heap} {hd : Nat} {ns : List Nat}
    (hr : isRing h hd ns) : hd ≠ 0 :=
  hr.2.1 hd (by simp)

/-- The links around a node in the middle of the ring. -/
theorem ring_at {h : Heap} {hd x : Nat} {as bs : List Nat}
    (hr : isRing h hd (as ++ x :: bs)) :
    h.nxt x = (bs ++ [hd]).headI ∧
    h.prv x = (hd :: as).getLast (by simp) := by
  obtain ⟨_, _, hch⟩ := hr
  have hch' : List.Chain (edge h) hd (as ++ x :: (bs ++ [hd])) := by
    simpa [List.append_assoc] using hch
  rcases List.chain_split.mp hch' with ⟨h1, h2⟩
  exact ⟨(chain_head_edge (by simp) h2).1, (chain_last_edge h1).2⟩

/-! ## Heap-level basic operations (`queue.c:52-151`), success paths -/

/-- `q_insert_head` after successful allocation of the node `e` and of
the payload copy (`e->value = strdup(s)` then `list_add(&e->list,
head)`). -/
def q_insert_head_heap (h : Heap) (hd e : Nat) (s : CStr) : Heap :=
  list_add (h.setVal e s) e hd

/-- `q_insert_tail` after successful allocation (`list_add_tail`). -/
def q_insert_tail_heap (h : Heap) (hd e : Nat) (s : CStr) : Heap :=
  list_add_tail (h.setVal e s) e hd

/-- `q_remove_head`: nothing on a NULL or empty queue, otherwise
`list_del(head->next)` (the removed element itself is not freed). -/
def q_remove_head_heap (h : Heap) (hd : Nat) : Heap :=
  if hd = 0 then h else if h.nxt hd = hd then h else list_del h (h.nxt hd)

/-- `q_remove_tail`: same with `head->prev`. -/
def q_remove_tail_heap (h : Heap) (hd : Nat) : Heap :=
  if hd = 0 then h else if h.nxt hd = hd then h else list_del h (h.prv hd)

theorem isRing_setVal {h : Heap} {hd : Nat} {ns : List Nat} (e : Nat) (s : CStr)
    (hr : isRing h hd ns) : isRing (h.setVal e s) hd ns := hr

theorem q_insert_head_heap_ring {h : Heap} {hd e : Nat} {ns : List Nat} (s : CStr)
    (hr : isRing h hd ns) (he0 : e ≠ 0) (hfresh : e ∉ hd :: ns) :
    isRing (q_insert_head_heap h hd e s) hd (e :: ns) := by
  have h1 := @ring_list_add (h.setVal e s) hd e [] ns
    (isRing_setVal e s hr) he0 (by simpa using hfresh)
  simpa [q_insert_head_heap] using h1

theorem q_insert_tail_heap_ring {h : Heap} {hd e : Nat} {ns : List Nat} (s : CStr)
    (hr : isRing h hd ns) (he0 : e ≠ 0) (hfresh : e ∉ hd :: ns) :
    isRing (q_insert_tail_heap h hd e s) hd (ns ++ [e]) :=
  ring_list_add_tail (isRing_setVal e s hr) he0 hfresh

theorem q_remove_head_heap_ring {h : Heap} {hd : Nat} {ns : List Nat}
    (hr : isRing h hd ns) :
    isRing (q_remove_head_heap h hd) hd ns.tail := by
  rw [q_remove_head_heap, if_neg (ring_hd_ne_zero hr)]
  cases ns with
  | nil =>
      rw [if_pos ((ring_empty_iff hr).mpr rfl)]
      exact hr
  | cons n rest =>
      have hne : h.nxt hd ≠ hd := fun hEq => by
        simpa using (ring_empty_iff hr).mp hEq
      rw [if_neg hne, ring_nxt_head hr]
      exact @ring_list_del h hd n [] rest hr

theorem q_remove_tail_heap_ring {h : Heap} {hd : Nat} {ns : List Nat}
    (hr : isRing h hd ns) :
    isRing (q_remove_tail_heap h hd) hd ns.dropLast := by
  rw [q_remove_tail_heap, if_neg (ring_hd_ne_zero hr)]
  cases hns : ns with
  | nil =>
      subst hns
      rw [if_pos ((ring_empty_iff hr).mpr rfl)]
      exact hr
  | cons n rest =>
      subst hns
      have hne : h.nxt hd ≠ hd := fun hEq => by
        simpa using (ring_empty_iff hr).mp hEq
      rw [if_neg hne]
      have hnsne : (n :: rest) ≠ ([] : List Nat) := by simp
      have hsplit : (n :: rest).dropLast ++ [(n :: rest).getLast hnsne] = n :: rest :=
        List.dropLast_append_getLast hnsne
      have hprv : h.prv hd = (n :: rest).getLast hnsne := by
        have h1 := (ring_last_edge hr).2
        have h2 : (hd :: n :: rest).getLast (by simp) = (n :: rest).getLast hnsne :=
          List.getLast_cons hnsne
        rw [h2] at h1
        exact h1
      rw [hprv]
      have hr' : isRing h hd ((n :: rest).dropLast ++
          (n :: rest).getLast hnsne :: []) := by
        rw [← hsplit] at hr
        simpa using hr
      simpa using ring_list_del hr'

/-! ## `q_reverse` at the pointer level (`queue.c:280-294`)

The loop visits the sentinel and then every element following the
(original) `next` links, and swaps the `next`/`prev` fields of each
visited node: `prev` and `next` hold the ring neighbours of `curr`, so
`curr->next = prev; curr->prev = next` exchanges the two fields. -/
def q_reverse_loop : Nat → Heap → Nat → Nat → Nat → Heap
  | 0, h, _, _, _ => h
  | f + 1, h, hd, prevN, curr =>
      let next := h.nxt curr
      let h' := (h.setNxt curr prevN).setPrv curr next
      if next = hd then h' else q_reverse_loop f h' hd curr next

/-- `q_reverse`: no-op on a NULL or empty queue, else run the loop
starting at the sentinel with `prev = head->prev`.  `f` is loop fuel;
`ns.length + 1` iterations always suffice on a valid ring. -/
def q_reverse_heap (h : Heap) (hd : Nat) (f : Nat) : Heap :=
  if hd = 0 then h
  else if h.nxt hd = hd then h
  else q_reverse_loop f h hd (h.prv hd) hd

theorem chain_fun_eq {F G : Nat → Nat} :
    ∀ {a : Nat} {l : List Nat},
      List.Chain (fun p q => F q = p) a l →
      List.Chain (fun p q => G q = p) a l →
      ∀ x ∈ l, F x = G x := by
  intro a l
  induction l generalizing a with
  | nil => intro _ _ x hx; simp at hx
  | cons b t ih =>
      intro h1 h2 x hx
      rcases List.chain_cons.mp h1 with ⟨hF, h1t⟩
      rcases List.chain_cons.mp h2 with ⟨hG, h2t⟩
      rcases List.mem_cons.mp hx with rfl | hx'
      · rw [hF, hG]
      · exact ih h1t h2t x hx'

theorem chain_cycle_reverse {R : Nat → Nat → Prop} {hd : Nat} {ns : List Nat}
    (hc : List.Chain R hd (ns ++ [hd])) :
    List.Chain (fun p q => R q p) hd (ns.reverse ++ [hd]) := by
  have h1 : List.Chain' (flip (flip R)) (hd :: (ns ++ [hd])) := hc
  have h2 := List.chain'_reverse.mpr h1
  have h3 : (hd :: (ns ++ [hd])).reverse = hd :: (ns.reverse ++ [hd]) := by
    simp
  rw [h3] at h2
  exact h2

theorem q_reverse_loop_spec :
    ∀ (rest : List Nat) (f : Nat) (h : Heap) (hd prevN curr : Nat),
      rest.length + 1 ≤ f →
      List.Chain (fun p q => h.nxt p = q) curr (rest ++ [hd]) →
      (curr :: rest).Nodup → hd ∉ rest →
      (∀ x, x ∉ curr :: rest →
        (q_reverse_loop f h hd prevN curr).nxt x = h.nxt x ∧
        (q_reverse_loop f h hd prevN curr).prv x = h.prv x) ∧
      (q_reverse_loop f h hd prevN curr).val = h.val ∧
      List.Chain (fun p q => (q_reverse_loop f h hd prevN curr).nxt q = p)
        prevN (curr :: rest) ∧
      (∀ x ∈ curr :: rest, (q_reverse_loop f h hd prevN curr).prv x = h.nxt x) := by
  intro rest
  induction rest with
  | nil =>
      intro f h hd prevN curr hf hch _ _
      match f, hf with
      | f' + 1, _ =>
        have hnxt : h.nxt curr = hd := by simpa using (List.chain_cons.mp hch).1
        rw [q_reverse_loop]
        simp only [hnxt, if_pos rfl]
        refine ⟨?_, rfl, ?_, ?_⟩
        · intro x hx
          have hxc : x ≠ curr := by simpa using hx
          constructor <;> simp [hxc]
        · refine List.chain_cons.mpr ⟨?_, List.Chain.nil⟩
          simp
        · intro x hx
          have hxc : x = curr := by simpa using hx
          subst hxc
          simp [hnxt]
  | cons y rest' ih =>
      intro f h hd prevN curr hf hch hnd hhd
      match f, hf with
      | f' + 1, hf' =>
        have hnxt : h.nxt curr = y := (List.chain_cons.mp hch).1
        have hcht : List.Chain (fun p q => h.nxt p = q) y (rest' ++ [hd]) :=
          (List.chain_cons.mp hch).2
        have hyhd : y ≠ hd := fun hEq => hhd (by simp [hEq])
        have hcy : curr ∉ y :: rest' := (List.nodup_cons.mp hnd).1
        rw [q_reverse_loop]
        simp only [hnxt, if_neg hyhd]
        have hch1 : List.Chain
            (fun p q => ((h.setNxt curr prevN).setPrv curr y).nxt p = q)
            y (rest' ++ [hd]) := by
          refine chain_congr_adj ?_ hcht
          intro p q hp hq he
          have hpc : p ≠ curr := by
            intro hEq
            subst hEq
            rcases List.mem_cons.mp hp with h' | h'
            · exact hcy (by simp [h'])
            · rw [List.dropLast_concat] at h'
              exact hcy (List.mem_cons_of_mem y h')
          simpa [hpc] using he
        have := ih f' ((h.setNxt curr prevN).setPrv curr y) hd curr y
          (by simp at hf'; omega) hch1 (List.nodup_cons.mp hnd).2
          (fun hEq => hhd (List.mem_cons_of_mem y hEq))
        obtain ⟨hframe, hval, hchain, hprv⟩ := this
        refine ⟨?_, ?_, ?_, ?_⟩
        · intro x hx
          have hxc : x ≠ curr := fun hEq => hx (by simp [hEq])
          have hxyr : x ∉ y :: rest' := fun hmem => hx (List.mem_cons_of_mem curr hmem)
          rcases hframe x hxyr with ⟨h1, h2⟩
          rw [h1, h2]
          constructor <;> simp [hxc]
        · rw [hval]
          rfl
        · refine List.chain_cons.mpr ⟨?_, hchain⟩
          rw [(hframe curr hcy).1]
          simp
        · intro x hx
          rcases List.mem_cons.mp hx with rfl | hx'
          · rw [(hframe x hcy).2, hnxt]
            simp
          · rw [hprv x hx']
            have hxc : x ≠ curr := fun hEq => hcy (hEq ▸ hx')
            simp [hxc]

/-- `q_reverse` keeps the ring invariants and reverses the element
order; payloads (and the set of nodes) are untouched. -/
theorem q_reverse_heap_ring {h : Heap} {hd : Nat} {ns : List Nat}
    (hr : isRing h hd ns) :
    isRing (q_reverse_heap h hd (ns.length + 1)) hd ns.reverse ∧
    (q_reverse_heap h hd (ns.length + 1)).val = h.val := by
  cases hns : ns with
  | nil =>
      subst hns
      rw [q_reverse_heap, if_neg (ring_hd_ne_zero hr),
        if_pos ((ring_empty_iff hr).mpr rfl)]
      exact ⟨hr, rfl⟩
  | cons n rest =>
      subst hns
      have hne : h.nxt hd ≠ hd := fun hEq => by
        simpa using (ring_empty_iff hr).mp hEq
      rw [q_reverse_heap, if_neg (ring_hd_ne_zero hr), if_neg hne]
      obtain ⟨hnd, hnz, hch⟩ := hr
      have hchn : List.Chain (fun p q => h.nxt p = q) hd ((n :: rest) ++ [hd]) :=
        List.Chain.imp (fun a b hab => hab.1) hch
      obtain ⟨hframe, hval, hchain, hprv⟩ :=
        q_reverse_loop_spec (n :: rest) ((n :: rest).length + 1) h hd (h.prv hd) hd
          (le_refl _) hchn hnd (List.nodup_cons.mp hnd).1
      have hprvchain : List.Chain (fun p q => h.prv q = p) (h.prv hd)
          (hd :: n :: rest) := by
        refine List.chain_cons.mpr ⟨rfl, ?_⟩
        exact List.Chain.imp (fun a b hab => hab.2) (chain_of_append_left hch)
      have hnxt' : ∀ x ∈ hd :: n :: rest,
          (q_reverse_loop ((n :: rest).length + 1) h hd (h.prv hd) hd).nxt x =
            h.prv x :=
        chain_fun_eq hchain hprvchain
      have hflip := chain_cycle_reverse hch
      have hchain' : List.Chain
          (edge (q_reverse_loop ((n :: rest).length + 1) h hd (h.prv hd) hd))
          hd ((n :: rest).reverse ++ [hd]) := by
        refine chain_congr_mem ?_ hflip
        intro p q hp hq hab
        have hpmem : p ∈ hd :: n :: rest := by
          simp [List.mem_reverse] at hp
          simp [List.mem_cons]
          tauto
        have hqmem : q ∈ hd :: n :: rest := by
          simp [List.mem_reverse] at hq
          simp [List.mem_cons]
          tauto
        exact ⟨by rw [hnxt' p hpmem]; exact hab.2,
          by rw [hprv q hqmem]; exact hab.1⟩
      refine ⟨⟨?_, ?_, hchain'⟩, hval⟩
      · have h1 := List.nodup_reverse.mpr hnd
        have h2 : (hd :: n :: rest).reverse = (n :: rest).reverse ++ [hd] := by simp
        rw [h2] at h1
        have h3 : (hd :: (n :: rest).reverse).Nodup := by
          rw [List.nodup_cons]
          constructor
          · intro hmem
            have := (List.nodup_cons.mp hnd).1
            exact this (List.mem_reverse.mp hmem)
          · exact List.nodup_reverse.mpr (List.nodup_cons.mp hnd).2
        exact h3
      · intro x hx
        refine hnz x ?_
        rcases List.mem_cons.mp hx with h' | h'
        · simp [h']
        · exact List.mem_cons_of_mem hd (List.mem_reverse.mp h')

/-- C8.  `q_reverse` reverses the element order in place: the resulting
ring holds exactly the original nodes in reverse order (no element is
created or destroyed, and payload memory — the `val` field of every
node — is untouched); applying it twice restores the original order;
a NULL or empty queue is left unchanged. -/
theorem q_reverse_correct (h : Heap) (hd : Nat) (ns : List Nat) (f : Nat)
    (hr : isRing h hd ns) :
    isRing (q_reverse_heap h hd (ns.length + 1)) hd ns.reverse ∧
    (q_reverse_heap h hd (ns.length + 1)).val = h.val ∧
    isRing (q_reverse_heap (q_reverse_heap h hd (ns.length + 1)) hd
        (ns.reverse.length + 1)) hd ns ∧
    q_reverse_heap h 0 f = h ∧
    (h.nxt hd = hd → q_reverse_heap h hd f = h) := by
  obtain ⟨h1, h2⟩ := q_reverse_heap_ring hr
  refine ⟨h1, h2, ?_, rfl, ?_⟩
  · have h3 := (q_reverse_heap_ring h1).1
    rwa [List.reverse_reverse] at h3
  · intro hEq
    by_cases h0 : hd = 0 <;> simp [q_reverse_heap, h0, hEq]

/-- A concrete three-element ring: sentinel 9, elements 1, 2, 3 with
payloads `"1"`, `"2"`, `"3"` (so the payload sequence is the claim's
`[1,2,3]` example). -/
def ringW : Heap :=
  ⟨fun x => if x = 9 then 1 else if x = 1 then 2 else if x = 2 then 3
            else if x = 3 then 9 else 0,
   fun x => if x = 9 then 3 else if x = 3 then 2 else if x = 2 then 1
            else if x = 1 then 9 else 0,
   fun x => [x + 48]⟩

theorem ringW_isRing : isRing ringW 9 [1, 2, 3] :=
  ⟨by decide, by decide,
    List.Chain.cons ⟨by decide, by decide⟩ (List.Chain.cons ⟨by decide, by decide⟩
      (List.Chain.cons ⟨by decide, by decide⟩
        (List.Chain.cons ⟨by decide, by decide⟩ List.Chain.nil)))⟩

/-- Closed instance of `q_reverse_correct` on the `[1,2,3]` ring: the
result is the ring `[3,2,1]` and reversing again restores `[1,2,3]`. -/
theorem q_reverse_correct_witness :
    isRing (q_reverse_heap ringW 9 ([1, 2, 3].length + 1)) 9 [3, 2, 1] ∧
    (q_reverse_heap ringW 9 ([1, 2, 3].length + 1)).val = ringW.val ∧
    isRing (q_reverse_heap (q_reverse_heap ringW 9 ([1, 2, 3].length + 1)) 9
        ([3, 2, 1].length + 1)) 9 [1, 2, 3] ∧
    q_reverse_heap ringW 0 7 = ringW ∧
    (ringW.nxt 9 = 9 → q_reverse_heap ringW 9 7 = ringW) :=
  q_reverse_correct ringW 9 [1, 2, 3] 7 ringW_isRing

/-! ## `q_delete_mid` at the pointer level (`queue.c:189-206`) -/

def q_delete_mid_loop : Nat → Heap → Nat → Nat → Nat → Nat
  | 0, _, _, _, slow => slow
  | f + 1, h, hd, fast, slow =>
      if fast ≠ hd ∧ h.nxt fast ≠ hd then
        q_delete_mid_loop f h hd (h.nxt (h.nxt fast)) (h.nxt slow)
      else slow

/-- `q_delete_mid`: both cursors start at `head->next`; when the fast
cursor reaches the sentinel or the node before it, the slow cursor's
node is unlinked (and released). -/
def q_delete_mid_heap (h : Heap) (hd : Nat) (f : Nat) : Heap :=
  if hd = 0 then h
  else if h.nxt hd = hd then h
  else list_del h (q_delete_mid_loop f h hd (h.nxt hd) (h.nxt hd))

theorem q_delete_mid_loop_hd (f : Nat) (h : Heap) (hd cs : Nat) :
    q_delete_mid_loop f h hd hd cs = cs := by
  cases f <;> simp [q_delete_mid_loop]

theorem q_delete_mid_loop_spec :
    ∀ (u v w : List Nat) (f : Nat) (h : Heap) (hd cf cs : Nat),
      fastSlowSteps (cf :: u) ≤ f →
      List.Chain (fun p q => h.nxt p = q) cf (u ++ [hd]) →
      List.Chain (fun p q => h.nxt p = q) cs (v ++ [hd]) →
      v = w ++ u →
      hd ∉ cf :: u →
      q_delete_mid_loop f h hd cf cs = (cs :: v).getD (fastSlowSteps (cf :: u)) 0
  | [], v, w, f, h, hd, cf, cs, hf, hchf, hchs, hvw, hhd => by
      have hnxt : h.nxt cf = hd := by simpa using (List.chain_cons.mp hchf).1
      have : fastSlowSteps [cf] = 0 := rfl
      rw [this]
      cases f with
      | zero => rfl
      | succ f' =>
          rw [q_delete_mid_loop, if_neg (by simp [hnxt])]
          rfl
  | [d], v, w, f, h, hd, cf, cs, hf, hchf, hchs, hvw, hhd => by
      have hsteps : fastSlowSteps [cf, d] = 1 := rfl
      rw [hsteps]
      match f, hf with
      | f' + 1, _ =>
        have hnxtf : h.nxt cf = d := (List.chain_cons.mp hchf).1
        have hnxtd : h.nxt d = hd := by
          simpa using (List.chain_cons.mp (List.chain_cons.mp hchf).2).1
        have hcf : cf ≠ hd := fun hEq => hhd (by simp [hEq])
        have hd' : d ≠ hd := fun hEq => hhd (by simp [hEq])
        rw [q_delete_mid_loop, if_pos ⟨hcf, by rw [hnxtf]; exact hd'⟩,
          hnxtf, hnxtd, q_delete_mid_loop_hd]
        cases hv : v with
        | nil => simp [hv] at hvw
        | cons v0 v' =>
            subst hv
            have : h.nxt cs = v0 := (List.chain_cons.mp hchs).1
            rw [this]
            rfl
  | d :: e :: u', v, w, f, h, hd, cf, cs, hf, hchf, hchs, hvw, hhd => by
      have hsteps : fastSlowSteps (cf :: d :: e :: u') =
          fastSlowSteps (e :: u') + 1 := rfl
      rw [hsteps]
      match f, hf with
      | f' + 1, hf' =>
        have hnxtf : h.nxt cf = d := (List.chain_cons.mp hchf).1
        have hchd : List.Chain (fun p q => h.nxt p = q) d ((e :: u') ++ [hd]) :=
          (List.chain_cons.mp hchf).2
        have hnxtd : h.nxt d = e := (List.chain_cons.mp hchd).1
        have hche : List.Chain (fun p q => h.nxt p = q) e (u' ++ [hd]) :=
          (List.chain_cons.mp hchd).2
        have hcf : cf ≠ hd := fun hEq => hhd (by simp [hEq])
        have hd' : d ≠ hd := fun hEq => hhd (by simp [hEq])
        have hvne : v ≠ [] := by
          rw [hvw]
          cases w <;> simp
        cases hv : v with
        | nil => exact absurd hv hvne
        | cons v0 v' =>
            subst hv
            have hnxts : h.nxt cs = v0 := (List.chain_cons.mp hchs).1
            have hchv : List.Chain (fun p q => h.nxt p = q) v0 (v' ++ [hd]) :=
              (List.chain_cons.mp hchs).2
            obtain ⟨w', hw'⟩ : ∃ w', v' = w' ++ u' := by
              cases w with
              | nil =>
                  have h1 : v0 = d ∧ v' = e :: u' := by
                    have := hvw
                    simp at this
                    exact ⟨this.1, this.2⟩
                  exact ⟨[e], by simp [h1.2]⟩
              | cons w0 w' =>
                  have h1 : v0 = w0 ∧ v' = w' ++ d :: e :: u' := by
                    have := hvw
                    simp at this
                    exact ⟨this.1, this.2⟩
                  exact ⟨w' ++ [d, e], by simp [h1.2]⟩
            rw [q_delete_mid_loop, if_pos ⟨hcf, by rw [hnxtf]; exact hd'⟩,
              hnxtf, hnxtd, hnxts]
            have hrec := q_delete_mid_loop_spec u' v' w' f' h hd e v0
              (by simp [fastSlowSteps] at hf' ⊢; omega) hche hchv hw'
              (fun hmem => hhd (by
                rcases List.mem_cons.mp hmem with h1 | h1
                · simp [h1]
                · simp [List.mem_cons]
                  tauto))
            rw [hrec]
            rfl

/-- `q_delete_mid` keeps the ring invariants: on a non-empty ring it
unlinks the node at index `⌊n/2⌋` and leaves a valid ring of the
remaining nodes; NULL and empty queues are untouched. -/
theorem q_delete_mid_heap_ring {h : Heap} {hd : Nat} {ns : List Nat}
    (hr : isRing h hd ns) :
    isRing (q_delete_mid_heap h hd ns.length) hd
      (ns.eraseIdx (fastSlowSteps ns)) := by
  cases hns : ns with
  | nil =>
      subst hns
      rw [q_delete_mid_heap, if_neg (ring_hd_ne_zero hr),
        if_pos ((ring_empty_iff hr).mpr rfl)]
      exact hr
  | cons n rest =>
      subst hns
      have hne : h.nxt hd ≠ hd := fun hEq => by
        simpa using (ring_empty_iff hr).mp hEq
      rw [q_delete_mid_heap, if_neg (ring_hd_ne_zero hr), if_neg hne]
      have hchn : List.Chain (fun p q => h.nxt p = q) hd ((n :: rest) ++ [hd]) :=
        List.Chain.imp (fun a b hab => hab.1) hr.2.2
      have hch1 : List.Chain (fun p q => h.nxt p = q) n (rest ++ [hd]) :=
        (List.chain_cons.mp hchn).2
      have hnxthd : h.nxt hd = n := (List.chain_cons.mp hchn).1
      have hloop := q_delete_mid_loop_spec rest rest [] (n :: rest).length h hd n n
        (by rw [fastSlowSteps_eq]; simp; omega) hch1 hch1 (by simp)
        (fun hmem => (List.nodup_cons.mp hr.1).1 hmem)
      rw [hnxthd, hloop]
      have hk : fastSlowSteps (n :: rest) < (n :: rest).length := by
        rw [fastSlowSteps_eq]
        simp
        omega
      have hgetD : (n :: rest).getD (fastSlowSteps (n :: rest)) 0 =
          (n :: rest).get ⟨fastSlowSteps (n :: rest), hk⟩ := by
        rw [List.getD_eq_getElem?_getD, List.getElem?_eq_getElem hk]
        rfl
      rw [hgetD]
      have hsplit : (n :: rest) = (n :: rest).take (fastSlowSteps (n :: rest)) ++
          (n :: rest).get ⟨fastSlowSteps (n :: rest), hk⟩ ::
            (n :: rest).drop (fastSlowSteps (n :: rest) + 1) := by
        conv_lhs => rw [← List.take_append_drop (fastSlowSteps (n :: rest)) (n :: rest)]
        congr 1
        rw [List.drop_eq_getElem_cons hk]
        rfl
      have hr' : isRing h hd ((n :: rest).take (fastSlowSteps (n :: rest)) ++
          (n :: rest).get ⟨fastSlowSteps (n :: rest), hk⟩ ::
            (n :: rest).drop (fastSlowSteps (n :: rest) + 1)) := by
        rw [← hsplit]
        exact hr
      have hdel := ring_list_del hr'
      rw [List.eraseIdx_eq_take_drop_succ]
      exact hdel

/-! ## `q_swap` at the pointer level (`queue.c:258-271`)

Each iteration takes the cursor node `n`, saves `next = n->next`,
unlinks `n` and re-inserts it immediately after `next`; the cursor then
moves to `n->next` in the new ring, which is the node after the swapped
pair. -/
def q_swap_loop : Nat → Heap → Nat → Nat → Heap
  | 0, h, _, _ => h
  | f + 1, h, hd, n =>
      if n ≠ hd ∧ h.nxt n ≠ hd then
        let next := h.nxt n
        let h' := list_add (list_del h n) n next
        q_swap_loop f h' hd (h'.nxt n)
      else h

/-- `q_swap`: no-op on a NULL handle, else run the pair-swapping loop
from `head->next`. -/
def q_swap_heap (h : Heap) (hd : Nat) (f : Nat) : Heap :=
  if hd = 0 then h else q_swap_loop f h hd (h.nxt hd)

theorem getLast_cons_append_singleton (hd b : Nat) (l : List Nat) :
    (hd :: (l ++ [b])).getLast (by simp) = b :=
  List.getLast_concat (hd :: l)

theorem q_swap_loop_spec :
    ∀ (rem done : List Nat) (f : Nat) (h : Heap) (hd : Nat),
      rem.length ≤ f →
      isRing h hd (done ++ rem) →
      isRing (q_swap_loop f h hd ((rem ++ [hd]).headI)) hd
          (done ++ q_swap_pairs rem) ∧
      (q_swap_loop f h hd ((rem ++ [hd]).headI)).val = h.val
  | [], done, f, h, hd, hf, hr => by
      have hcur : (([] : List Nat) ++ [hd]).headI = hd := rfl
      rw [hcur]
      have hstop : q_swap_loop f h hd hd = h := by
        cases f <;> simp [q_swap_loop]
      rw [hstop]
      exact ⟨by simpa [q_swap_pairs] using hr, rfl⟩
  | [a], done, f, h, hd, hf, hr => by
      have hcur : (([a] : List Nat) ++ [hd]).headI = a := rfl
      rw [hcur]
      have hnxta : h.nxt a = hd := by
        have := (@ring_at h hd a done [] (by simpa using hr)).1
        simpa using this
      match f, hf with
      | f' + 1, _ =>
        rw [q_swap_loop, if_neg (by simp [hnxta])]
        exact ⟨by simpa [q_swap_pairs] using hr, rfl⟩
  | a :: b :: rem', done, f, h, hd, hf, hr => by
      have hcur : ((a :: b :: rem') ++ [hd]).headI = a := rfl
      rw [hcur]
      have hra : isRing h hd (done ++ a :: (b :: rem')) := by simpa using hr
      have hnxta : h.nxt a = b := by
        have := (@ring_at h hd a done (b :: rem') hra).1
        simpa using this
      have hnd := hr.1
      have hahd : a ≠ hd := by
        intro hEq
        exact (List.nodup_cons.mp hnd).1 (hEq ▸ (by simp : a ∈ done ++ a :: b :: rem'))
      have hbhd : b ≠ hd := by
        intro hEq
        exact (List.nodup_cons.mp hnd).1 (hEq ▸ (by simp : b ∈ done ++ a :: b :: rem'))
      match f, hf with
      | f' + 1, hf' =>
        rw [q_swap_loop]
        rw [if_pos ⟨hahd, by rw [hnxta]; exact hbhd⟩]
        have hdel : isRing (list_del h a) hd (done ++ b :: rem') :=
          @ring_list_del h hd a done (b :: rem') hra
        have hdel' : isRing (list_del h a) hd ((done ++ [b]) ++ rem') := by
          simpa using hdel
        have ha0 : a ≠ 0 := hr.2.1 a (by simp)
        have hafresh : a ∉ hd :: ((done ++ [b]) ++ rem') := by
          intro hmem
          rcases List.mem_cons.mp hmem with h' | h'
          · exact hahd h'
          · have hnd2 : (done ++ a :: b :: rem').Nodup := (List.nodup_cons.mp hnd).2
            have hmid := List.nodup_middle.mp hnd2
            have hanotin := (List.nodup_cons.mp hmid).1
            refine hanotin ?_
            rcases List.mem_append.mp h' with h'' | h''
            · rcases List.mem_append.mp h'' with h3 | h3
              · exact List.mem_append.mpr (Or.inl h3)
              · have hab : a = b := by simpa using h3
                exact List.mem_append.mpr (Or.inr (by simp [hab]))
            · exact List.mem_append.mpr (Or.inr (List.mem_cons_of_mem b h''))
        have hadd := @ring_list_add (list_del h a) hd a (done ++ [b]) rem'
          hdel' ha0 hafresh
        have hglb : ((hd :: (done ++ [b])).getLast (by simp)) = b :=
          getLast_cons_append_singleton hd b done
        rw [hglb] at hadd
        simp only [hnxta]
        have hnxtA : (list_add (list_del h a) a b).nxt a = (rem' ++ [hd]).headI :=
          (@ring_at (list_add (list_del h a) a b) hd a (done ++ [b]) rem' hadd).1
        have hadd2 : isRing (list_add (list_del h a) a b) hd
            ((done ++ [b, a]) ++ rem') := by
          have : (done ++ [b]) ++ a :: rem' = (done ++ [b, a]) ++ rem' := by simp
          rw [← this]
          exact hadd
        have hrec := q_swap_loop_spec rem' (done ++ [b, a]) f'
          (list_add (list_del h a) a b) hd (by simp at hf' ⊢; omega) hadd2
        rw [hnxtA]
        refine ⟨?_, ?_⟩
        · have h1 := hrec.1
          have h2 : (done ++ [b, a]) ++ q_swap_pairs rem' =
              done ++ q_swap_pairs (a :: b :: rem') := by
            simp [q_swap_pairs]
          rw [h2] at h1
          exact h1
        · rw [hrec.2]
          rfl

/-- `q_swap` keeps the ring invariants and swaps adjacent pairs. -/
theorem q_swap_heap_ring {h : Heap} {hd : Nat} {ns : List Nat}
    (hr : isRing h hd ns) :
    isRing (q_swap_heap h hd ns.length) hd (q_swap_pairs ns) ∧
    (q_swap_heap h hd ns.length).val = h.val := by
  rw [q_swap_heap, if_neg (ring_hd_ne_zero hr)]
  have hnxthd : h.nxt hd = (ns ++ [hd]).headI := by
    cases ns with
    | nil => simpa using (ring_empty_iff hr).mpr rfl
    | cons n rest => simpa using ring_nxt_head hr
  rw [hnxthd]
  have := q_swap_loop_spec ns [] ns.length h hd (le_refl _) (by simpa using hr)
  simpa using this

/-! ## `q_delete_dup` at the pointer level (`queue.c:217-253`)

The inner loop deletes the nodes following `start` while their payload
is `strcmp`-equal to `start`'s (setting `prev = start` as a flag); the
outer loop then deletes `start` itself when the flag was set and
restarts at the first differing node. -/
def q_dd_inner : Nat → Heap → Nat → Nat → Nat → Heap × Nat × Bool
  | 0, h, _, _, e => (h, e, false)
  | f + 1, h, hd, s, e =>
      if e ≠ hd ∧ strcmp (h.val s) (h.val e) = 0 then
        let next := h.nxt e
        let h' := list_del h e
        let r := q_dd_inner f h' hd s next
        (r.1, r.2.1, true)
      else (h, e, false)

def q_dd_outer : Nat → Heap → Nat → Nat → Heap
  | 0, h, _, _ => h
  | f + 1, h, hd, s =>
      if s = hd then h
      else
        let r := q_dd_inner (f + 1) h hd s (h.nxt s)
        let h2 := if r.2.2 then list_del r.1 s else r.1
        q_dd_outer f h2 hd r.2.1

/-- `q_delete_dup`: `false` on NULL (no heap change); nothing on an
empty queue; otherwise the scan starting at `head->next`. -/
def q_delete_dup_heap (h : Heap) (hd : Nat) (f : Nat) : Heap :=
  if hd = 0 then h
  else if h.nxt hd = hd then h
  else q_dd_outer f h hd (h.nxt hd)

theorem q_dd_inner_spec :
    ∀ (rest done : List Nat) (f : Nat) (h : Heap) (hd s : Nat),
      rest.length ≤ f →
      isRing h hd ((done ++ [s]) ++ rest) →
      (q_dd_inner f h hd s ((rest ++ [hd]).headI)).1.val = h.val ∧
      isRing (q_dd_inner f h hd s ((rest ++ [hd]).headI)).1 hd
        ((done ++ [s]) ++
          rest.dropWhile (fun b => strcmp (h.val s) (h.val b) == 0)) ∧
      (q_dd_inner f h hd s ((rest ++ [hd]).headI)).2.1 =
        ((rest.dropWhile (fun b => strcmp (h.val s) (h.val b) == 0)) ++ [hd]).headI ∧
      (q_dd_inner f h hd s ((rest ++ [hd]).headI)).2.2 =
        !(rest.takeWhile (fun b => strcmp (h.val s) (h.val b) == 0)).isEmpty
  | [], done, f, h, hd, s, hf, hr => by
      have hcur : (([] : List Nat) ++ [hd]).headI = hd := rfl
      rw [hcur]
      have hstop : q_dd_inner f h hd s hd = (h, hd, false) := by
        cases f <;> simp [q_dd_inner]
      rw [hstop]
      exact ⟨rfl, by simpa using hr, rfl, rfl⟩
  | b :: rest', done, f, h, hd, s, hf, hr => by
      have hcur : ((b :: rest') ++ [hd]).headI = b := rfl
      rw [hcur]
      have hbhd : b ≠ hd := by
        intro hEq
        exact (List.nodup_cons.mp hr.1).1 (hEq ▸ (by simp : b ∈ (done ++ [s]) ++ b :: rest'))
      match f, hf with
      | f' + 1, hf' =>
        by_cases hcmp : strcmp (h.val s) (h.val b) = 0
        · rw [q_dd_inner, if_pos ⟨hbhd, hcmp⟩]
          have hnxtb : h.nxt b = (rest' ++ [hd]).headI :=
            (@ring_at h hd b (done ++ [s]) rest' (by simpa using hr)).1
          have hdel : isRing (list_del h b) hd ((done ++ [s]) ++ rest') :=
            @ring_list_del h hd b (done ++ [s]) rest' (by simpa using hr)
          have hrec := q_dd_inner_spec rest' done f' (list_del h b) hd s
            (by simp at hf'; omega) hdel
          simp only [hnxtb]
          obtain ⟨hv, hring, he, hd2⟩ := hrec
          have hvals : (list_del h b).val = h.val := rfl
          rw [hvals] at hv hring he
          refine ⟨hv, ?_, ?_, ?_⟩
          · have : (b :: rest').dropWhile
                (fun x => strcmp (h.val s) (h.val x) == 0) =
                rest'.dropWhile (fun x => strcmp (h.val s) (h.val x) == 0) := by
              rw [List.dropWhile_cons, if_pos (by simpa using hcmp)]
            rw [this]
            exact hring
          · have : (b :: rest').dropWhile
                (fun x => strcmp (h.val s) (h.val x) == 0) =
                rest'.dropWhile (fun x => strcmp (h.val s) (h.val x) == 0) := by
              rw [List.dropWhile_cons, if_pos (by simpa using hcmp)]
            rw [this]
            exact he
          · have : (b :: rest').takeWhile
                (fun x => strcmp (h.val s) (h.val x) == 0) =
                b :: rest'.takeWhile (fun x => strcmp (h.val s) (h.val x) == 0) := by
              rw [List.takeWhile_cons, if_pos (by simpa using hcmp)]
            rw [this]
            simp
        · rw [q_dd_inner, if_neg (by simp [hcmp])]
          have hdw : (b :: rest').dropWhile
              (fun x => strcmp (h.val s) (h.val x) == 0) = b :: rest' := by
            rw [List.dropWhile_cons, if_neg (by simpa using hcmp)]
          have htw : (b :: rest').takeWhile
              (fun x => strcmp (h.val s) (h.val x) == 0) = [] := by
            rw [List.takeWhile_cons, if_neg (by simpa using hcmp)]
          rw [hdw, htw]
          exact ⟨rfl, by simpa using hr, rfl, rfl⟩

theorem q_dd_outer_spec :
    ∀ (rem done : List Nat) (f : Nat) (h : Heap) (hd : Nat),
      rem.length ≤ f →
      isRing h hd (done ++ rem) →
      isRing (q_dd_outer f h hd ((rem ++ [hd]).headI)) hd
        (done ++ q_delete_dup_scan (h.val) rem) ∧
      (q_dd_outer f h hd ((rem ++ [hd]).headI)).val = h.val
  | [], done, f, h, hd, hf, hr => by
      have hcur : (([] : List Nat) ++ [hd]).headI = hd := rfl
      rw [hcur]
      have hstop : q_dd_outer f h hd hd = h := by
        cases f <;> simp [q_dd_outer]
      rw [hstop]
      exact ⟨by simpa [q_delete_dup_scan] using hr, rfl⟩
  | s :: rest, done, f, h, hd, hf, hr => by
      have hcur : ((s :: rest) ++ [hd]).headI = s := rfl
      rw [hcur]
      have hshd : s ≠ hd := by
        intro hEq
        exact (List.nodup_cons.mp hr.1).1 (hEq ▸ (by simp : s ∈ done ++ s :: rest))
      match f, hf with
      | f' + 1, hf' =>
        rw [q_dd_outer, if_neg hshd]
        have hnxts : h.nxt s = (rest ++ [hd]).headI :=
          (@ring_at h hd s done rest hr).1
        simp only [hnxts]
        obtain ⟨hv, hring, he, hdflag⟩ := q_dd_inner_spec rest done (f' + 1) h hd s
          (by simp at hf'; omega) (by simpa using hr)
        by_cases hrun : (rest.takeWhile
            (fun b => strcmp (h.val s) (h.val b) == 0)).isEmpty
        · -- no duplicate deleted: keep `s`
          have hflag2 : (q_dd_inner (f' + 1) h hd s
              ((rest ++ [hd]).headI)).2.2 = false := by
            rw [hdflag, hrun]
            rfl
          rw [hflag2]
          rw [if_neg (by simp)]
          have hdw : rest.dropWhile (fun b => strcmp (h.val s) (h.val b) == 0) =
              rest := by
            have h1 := List.takeWhile_append_dropWhile
              (fun b => strcmp (h.val s) (h.val b) == 0) rest
            rwa [List.isEmpty_iff.mp hrun, List.nil_append] at h1
          rw [hdw] at hring he
          rw [he]
          have hrec := q_dd_outer_spec rest (done ++ [s]) f'
            (q_dd_inner (f' + 1) h hd s ((rest ++ [hd]).headI)).1 hd
            (by simp at hf'; omega) (by simpa using hring)
          obtain ⟨hrec1, hrec2⟩ := hrec
          rw [hv] at hrec1 hrec2
          refine ⟨?_, hrec2⟩
          rw [q_delete_dup_scan, if_pos (by simpa using hrun), hdw]
          simpa using hrec1
        · -- duplicates deleted: also delete `s`
          have hflag2 : (q_dd_inner (f' + 1) h hd s
              ((rest ++ [hd]).headI)).2.2 = true := by
            rw [hdflag, show (rest.takeWhile
              (fun b => strcmp (h.val s) (h.val b) == 0)).isEmpty = false from
              by simpa using hrun]
            rfl
          rw [hflag2]
          rw [if_pos rfl]
          rw [he]
          have hdel2 : isRing (list_del
              (q_dd_inner (f' + 1) h hd s ((rest ++ [hd]).headI)).1 s) hd
              (done ++ rest.dropWhile (fun b => strcmp (h.val s) (h.val b) == 0)) :=
            @ring_list_del (q_dd_inner (f' + 1) h hd s ((rest ++ [hd]).headI)).1 hd s
              done (rest.dropWhile (fun b => strcmp (h.val s) (h.val b) == 0))
              (by simpa using hring)
          have hlen2 : (rest.dropWhile
              (fun b => strcmp (h.val s) (h.val b) == 0)).length ≤ f' := by
            have hsub := List.Sublist.length_le
              (show (rest.dropWhile
                  (fun b => strcmp (h.val s) (h.val b) == 0)).Sublist rest from
                List.dropWhile_sublist _)
            simp at hf'
            omega
          obtain ⟨hrec1, hrec2⟩ := q_dd_outer_spec
            (rest.dropWhile (fun b => strcmp (h.val s) (h.val b) == 0)) done f'
            (list_del (q_dd_inner (f' + 1) h hd s ((rest ++ [hd]).headI)).1 s) hd
            hlen2 hdel2
          have hvals : (list_del
              (q_dd_inner (f' + 1) h hd s ((rest ++ [hd]).headI)).1 s).val =
              h.val := by
            rw [list_del_val, hv]
          rw [hvals] at hrec1 hrec2
          refine ⟨?_, hrec2⟩
          rw [q_delete_dup_scan, if_neg (by simpa using hrun)]
          exact hrec1
  termination_by rem _ _ _ _ => rem.length
  decreasing_by
    · simp only [List.length_cons]
      omega
    · simp only [List.length_cons]
      have hsub := List.Sublist.length_le
        (show (rest.dropWhile
            (fun b => strcmp (h.val s) (h.val b) == 0)).Sublist rest from
          List.dropWhile_sublist _)
      omega

/-- `q_delete_dup` keeps the ring invariants: the surviving ring holds
exactly the nodes the value-level scan keeps. -/
theorem q_delete_dup_heap_ring {h : Heap} {hd : Nat} {ns : List Nat}
    (hr : isRing h hd ns) :
    isRing (q_delete_dup_heap h hd ns.length) hd
      (q_delete_dup_scan (h.val) ns) ∧
    (q_delete_dup_heap h hd ns.length).val = h.val := by
  cases hns : ns with
  | nil =>
      subst hns
      rw [q_delete_dup_heap, if_neg (ring_hd_ne_zero hr),
        if_pos ((ring_empty_iff hr).mpr rfl)]
      exact ⟨by simpa [q_delete_dup_scan] using hr, rfl⟩
  | cons n rest =>
      subst hns
      have hne : h.nxt hd ≠ hd := fun hEq => by
        simpa using (ring_empty_iff hr).mp hEq
      rw [q_delete_dup_heap, if_neg (ring_hd_ne_zero hr), if_neg hne]
      rw [ring_nxt_head hr, show n = ((n :: rest) ++ [hd]).headI from rfl]
      exact q_dd_outer_spec (n :: rest) [] (n :: rest).length h hd (le_refl _)
        (by simpa using hr)

/-! ## `q_sort` at the pointer level (`queue.c:338-355`)

`q_sort` first counts the elements (`q_size`), then cuts the ring into
a NULL-terminated singly-linked chain (`head->prev->next = NULL`),
`merge_sort`s the chain — while the sort runs only `next` fields are
meaningful — and finally re-threads the sorted chain into a ring by a
forward pass that rebuilds every `prev` field and closes the cycle. -/

def q_size_loop : Nat → Heap → Nat → Nat → Nat
  | 0, _, _, _ => 0
  | f + 1, h, hd, p => if p = hd then 0 else q_size_loop f h hd (h.nxt p) + 1

def q_size_heap (h : Heap) (hd : Nat) (f : Nat) : Nat :=
  if hd = 0 then 0
  else if h.nxt hd = hd then 0
  else q_size_loop f h hd (h.nxt hd)

theorem q_size_loop_hd (f : Nat) (h : Heap) (hd : Nat) :
    q_size_loop f h hd hd = 0 := by
  cases f <;> simp [q_size_loop]

theorem q_size_loop_spec :
    ∀ (u : List Nat) (f : Nat) (h : Heap) (hd c : Nat),
      (c :: u).length ≤ f →
      List.Chain (fun p q => h.nxt p = q) c (u ++ [hd]) →
      hd ∉ c :: u →
      q_size_loop f h hd c = (c :: u).length
  | [], f, h, hd, c, hf, hch, hhd => by
      match f, hf with
      | f' + 1, _ =>
        have hc : c ≠ hd := fun hEq => hhd (by simp [hEq])
        have hnxt : h.nxt c = hd := by simpa using (List.chain_cons.mp hch).1
        rw [q_size_loop, if_neg hc, hnxt, q_size_loop_hd]
        rfl
  | y :: u', f, h, hd, c, hf, hch, hhd => by
      match f, hf with
      | f' + 1, hf' =>
        have hc : c ≠ hd := fun hEq => hhd (by simp [hEq])
        have hnxt : h.nxt c = y := (List.chain_cons.mp hch).1
        rw [q_size_loop, if_neg hc, hnxt,
          q_size_loop_spec u' f' h hd y (by simp at hf' ⊢; omega)
            (List.chain_cons.mp hch).2
            (fun hmem => hhd (List.mem_cons_of_mem c hmem))]
        simp


theorem q_size_heap_spec {h : Heap} {hd : Nat} {ns : List Nat}
    (hr : isRing h hd ns) : q_size_heap h hd ns.length = ns.length := by
  rw [q_size_heap, if_neg (ring_hd_ne_zero hr)]
  cases hns : ns with
  | nil =>
      subst hns
      rw [if_pos ((ring_empty_iff hr).mpr rfl)]
      rfl
  | cons n rest =>
      subst hns
      have hne : h.nxt hd ≠ hd := fun hEq => by
        simpa using (ring_empty_iff hr).mp hEq
      rw [if_neg hne, ring_nxt_head hr]
      exact q_size_loop_spec rest (n :: rest).length h hd n (le_refl _)
        (List.Chain.imp (fun a b hab => hab.1) (List.chain_cons.mp hr.2.2).2)
        (List.nodup_cons.mp hr.1).1

/-- The NULL-terminated singly linked chain starting at the pointer
`p` and holding the nodes `c` in order (only `next` fields matter). -/
def chainIs (h : Heap) : Nat → List Nat → Prop
  | p, [] => p = 0
  | p, n :: rest => p = n ∧ n ≠ 0 ∧ chainIs h (h.nxt n) rest

theorem chainIs_congr :
    ∀ {c : List Nat} {h h' : Heap} {p : Nat},
      (∀ x ∈ c, h'.nxt x = h.nxt x) → chainIs h p c → chainIs h' p c := by
  intro c
  induction c with
  | nil => intro h h' p _ hc; exact hc
  | cons n rest ih =>
      intro h h' p hag hc
      obtain ⟨hp, hn0, hrest⟩ := hc
      refine ⟨hp, hn0, ?_⟩
      rw [hag n (by simp)]
      exact ih (fun x hx => hag x (List.mem_cons_of_mem n hx)) hrest

theorem chainIs_head_ne (h : Heap) {p : Nat} {n : Nat} {rest : List Nat}
    (hc : chainIs h p (n :: rest)) : p = n ∧ n ≠ 0 := ⟨hc.1, hc.2.1⟩

theorem chainIs_getLast_nxt :
    ∀ (c : List Nat) (h : Heap) (p : Nat) (hne : c ≠ []),
      chainIs h p c → h.nxt (c.getLast hne) = 0
  | [], _, _, hne, _ => absurd rfl hne
  | [n], h, p, _, hc => by simpa using hc.2.2
  | n :: m :: rest, h, p, _, hc => by
      rw [List.getLast_cons (by simp)]
      exact chainIs_getLast_nxt (m :: rest) h (h.nxt n) (by simp) hc.2.2

/-- Cutting the ring: writing NULL into the `next` field of the last
node turns the `next`-walk of the ring into a NULL-terminated chain. -/
theorem cut_chainIs :
    ∀ (u : List Nat) (h : Heap) (hd c : Nat),
      List.Chain (fun p q => h.nxt p = q) c (u ++ [hd]) →
      (∀ x ∈ c :: u, x ≠ 0) →
      (c :: u).Nodup →
      chainIs (h.setNxt ((c :: u).getLast (by simp)) 0) c (c :: u)
  | [], h, hd, c, hch, hnz, hnd => by
      refine ⟨rfl, hnz c (by simp), ?_⟩
      simp [chainIs]
  | y :: u', h, hd, c, hch, hnz, hnd => by
      have hgl : ((c :: y :: u').getLast (by simp)) = ((y :: u').getLast (by simp)) :=
        List.getLast_cons (by simp)
      refine ⟨rfl, hnz c (by simp), ?_⟩
      have hcy : c ∉ y :: u' := (List.nodup_cons.mp hnd).1
      have hcgl : c ≠ ((c :: y :: u').getLast (by simp)) := by
        rw [hgl]
        intro hEq
        exact hcy (hEq ▸ List.getLast_mem (by simp))
      have hnxt : h.nxt c = y := (List.chain_cons.mp hch).1
      rw [Heap.nxt_setNxt, if_neg hcgl, hnxt]
      have := cut_chainIs u' h hd y (List.chain_cons.mp hch).2
        (fun x hx => hnz x (List.mem_cons_of_mem c hx)) (List.nodup_cons.mp hnd).2
      rw [hgl]
      exact this

/-- Cutting a chain after its `k`-th node (`slow->next = NULL`)
produces the two half chains; the second starts at the old successor of
the cut node. -/
theorem chainIs_split :
    ∀ (c : List Nat) (k : Nat) (h : Heap) (p : Nat),
      chainIs h p c → c.Nodup → k + 1 ≤ c.length →
      chainIs (h.setNxt (c.getD k 0) 0) p (c.take (k + 1)) ∧
      chainIs (h.setNxt (c.getD k 0) 0) (h.nxt (c.getD k 0)) (c.drop (k + 1))
  | [], k, h, p, hc, hnd, hk => by simp at hk
  | n :: rest, 0, h, p, hc, hnd, hk => by
      obtain ⟨hp, hn0, hrest⟩ := hc
      refine ⟨⟨hp, hn0, ?_⟩, ?_⟩
      · simp [chainIs]
      · have hgd : (n :: rest).getD 0 0 = n := rfl
        rw [hgd]
        refine chainIs_congr ?_ (by simpa using hrest)
        intro x hx
        have hxn : x ≠ n := by
          intro hEq
          exact (List.nodup_cons.mp hnd).1 (hEq ▸ (by simpa using hx))
        simp [hxn]
  | n :: rest, k + 1, h, p, hc, hnd, hk => by
      obtain ⟨hp, hn0, hrest⟩ := hc
      have hgd : (n :: rest).getD (k + 1) 0 = rest.getD k 0 := rfl
      have hmem : rest.getD k 0 ∈ rest := by
        have hklen : k < rest.length := by simp at hk; omega
        rw [List.getD_eq_getElem?_getD, List.getElem?_eq_getElem hklen]
        exact List.getElem_mem _
      have hnn : n ≠ rest.getD k 0 := by
        intro hEq
        exact (List.nodup_cons.mp hnd).1 (hEq ▸ hmem)
      obtain ⟨h1, h2⟩ := chainIs_split rest k h (h.nxt n) hrest
        (List.nodup_cons.mp hnd).2 (by simp at hk; omega)
      rw [hgd]
      refine ⟨⟨hp, hn0, ?_⟩, h2⟩
      rw [Heap.nxt_setNxt, if_neg hnn]
      exact h1

/-- The merge loop of `merge_two_lists` (`queue.c:306-315`): `last` is
the most recently appended node (the slot `ptr` points into its `next`
field); when either chain runs out, `*ptr = (uintptr_t) l1 | (uintptr_t)
l2` splices the leftover chain (one operand is NULL, so the bitwise or
is the other pointer). -/
def merge_two_lists_loop : Nat → Heap → Nat → Nat → Nat → Heap
  | 0, h, _, _, _ => h
  | f + 1, h, l1, l2, last =>
      if l1 = 0 ∨ l2 = 0 then h.setNxt last (l1 ||| l2)
      else if strcmp (h.val l1) (h.val l2) ≤ 0 then
        merge_two_lists_loop f (h.setNxt last l1) ((h.setNxt last l1).nxt l1) l2 l1
      else
        merge_two_lists_loop f (h.setNxt last l2) l1 ((h.setNxt last l2).nxt l2) l2

/-- `merge_two_lists` (`queue.c:302-318`): the first pick becomes the
returned head (the local `head` variable, no heap write); the loop then
splices the rest behind it. -/
def merge_two_lists_heap (f : Nat) (h : Heap) (l1 l2 : Nat) : Heap × Nat :=
  if l1 = 0 ∨ l2 = 0 then (h, l1 ||| l2)
  else if strcmp (h.val l1) (h.val l2) ≤ 0 then
    (merge_two_lists_loop f h (h.nxt l1) l2 l1, l1)
  else
    (merge_two_lists_loop f h l1 (h.nxt l2) l2, l2)

theorem merge_loop_spec :
    ∀ (c1 c2 : List Nat) (f : Nat) (h : Heap) (l1 l2 last : Nat),
      c1.length + c2.length + 1 ≤ f →
      chainIs h l1 c1 → chainIs h l2 c2 →
      (c1 ++ c2).Nodup → last ∉ c1 ++ c2 → last ≠ 0 →
      chainIs (merge_two_lists_loop f h l1 l2 last) last
        (last :: merge_two_lists (fun n => h.val n) c1 c2) ∧
      (merge_two_lists_loop f h l1 l2 last).val = h.val ∧
      (merge_two_lists_loop f h l1 l2 last).prv = h.prv ∧
      ∀ x, x ∉ last :: (c1 ++ c2) →
        (merge_two_lists_loop f h l1 l2 last).nxt x = h.nxt x
  | [], c2, f, h, l1, l2, last, hf, hc1, hc2, hnd, hlast, hl0 => by
      match f, hf with
      | f' + 1, _ =>
        have hl1 : l1 = 0 := hc1
        rw [merge_two_lists_loop, if_pos (Or.inl hl1), hl1]
        have hor : (0 ||| l2) = l2 := Nat.zero_or l2
        rw [hor]
        simp only [merge_two_lists]
        refine ⟨⟨rfl, hl0, ?_⟩, rfl, rfl, ?_⟩
        · rw [Heap.nxt_setNxt, if_pos rfl]
          refine chainIs_congr ?_ hc2
          intro x hx
          rw [Heap.nxt_setNxt, if_neg ?_]
          intro hEq
          exact hlast (hEq ▸ (by simpa using hx))
        · intro x hx
          rw [Heap.nxt_setNxt, if_neg (by simp at hx; exact hx.1)]
  | a :: c1', [], f, h, l1, l2, last, hf, hc1, hc2, hnd, hlast, hl0 => by
      match f, hf with
      | f' + 1, _ =>
        have hl2 : l2 = 0 := hc2
        rw [merge_two_lists_loop, if_pos (Or.inr hl2)]
        rw [hl2]
        have hor : (l1 ||| 0) = l1 := Nat.or_zero l1
        rw [hor]
        simp only [merge_two_lists]
        refine ⟨⟨rfl, hl0, ?_⟩, rfl, rfl, ?_⟩
        · rw [Heap.nxt_setNxt, if_pos rfl]
          show chainIs _ l1 (a :: c1')
          refine chainIs_congr ?_ hc1
          intro x hx
          rw [Heap.nxt_setNxt, if_neg ?_]
          intro hEq
          exact hlast (hEq ▸ (by simpa using hx))
        · intro x hx
          rw [Heap.nxt_setNxt, if_neg (by simp at hx; exact hx.1)]
  | a :: c1', b :: c2', f, h, l1, l2, last, hf, hc1, hc2, hnd, hlast, hl0 => by
      match f, hf with
      | f' + 1, hf' =>
        obtain ⟨ha, ha0, hrest1⟩ := hc1
        obtain ⟨hb, hb0, hrest2⟩ := hc2
        subst ha hb
        have hcond : ¬(l1 = 0 ∨ l2 = 0) := by
          intro hor; cases hor with
          | inl h1 => exact ha0 h1
          | inr h2 => exact hb0 h2
        rw [merge_two_lists_loop, if_neg hcond]
        have hanotin : l1 ∉ c1' ++ l2 :: c2' := by
          have := hnd
          rw [show (l1 :: c1') ++ (l2 :: c2') = l1 :: (c1' ++ l2 :: c2') from rfl,
            List.nodup_cons] at this
          exact this.1
        have hlastne : ∀ x ∈ c1' ++ l2 :: c2', x ≠ last := by
          intro x hx hEq
          apply hlast
          rcases List.mem_append.mp hx with h1 | h2
          · exact hEq ▸ List.mem_append.mpr (Or.inl (List.mem_cons_of_mem l1 h1))
          · exact hEq ▸ List.mem_append.mpr (Or.inr h2)
        by_cases hcmp : strcmp (h.val l1) (h.val l2) ≤ 0
        · rw [if_pos hcmp]
          have hne_a_last : l1 ≠ last := by
            intro hEq; exact hlast (hEq ▸ (by simp))
          have hstep : (h.setNxt last l1).nxt l1 = h.nxt l1 := by
            rw [Heap.nxt_setNxt, if_neg hne_a_last]
          rw [hstep]
          have hc1n : chainIs (h.setNxt last l1) (h.nxt l1) c1' := by
            refine chainIs_congr ?_ hrest1
            intro x hx
            rw [Heap.nxt_setNxt,
              if_neg (hlastne x (List.mem_append.mpr (Or.inl hx)))]
          have hc2n : chainIs (h.setNxt last l1) l2 (l2 :: c2') := by
            refine chainIs_congr ?_ ⟨rfl, hb0, hrest2⟩
            intro x hx
            rw [Heap.nxt_setNxt,
              if_neg (hlastne x (List.mem_append.mpr (Or.inr hx)))]
          have hndn : (c1' ++ l2 :: c2').Nodup := by
            have := hnd
            rw [show (l1 :: c1') ++ (l2 :: c2') = l1 :: (c1' ++ l2 :: c2') from rfl,
              List.nodup_cons] at this
            exact this.2
          obtain ⟨ih1, ih2, ih3, ih4⟩ :=
            merge_loop_spec c1' (l2 :: c2') f' (h.setNxt last l1) (h.nxt l1) l2 l1
              (by simp at hf' ⊢; omega) hc1n hc2n hndn hanotin ha0
          have hvaleq : (h.setNxt last l1).val = h.val := rfl
          rw [hvaleq] at ih1 ih2
          have hmerge :
              merge_two_lists (fun n => h.val n) (l1 :: c1') (l2 :: c2') =
                l1 :: merge_two_lists (fun n => h.val n) c1' (l2 :: c2') := by
            simp only [merge_two_lists]
            rw [if_pos hcmp]
          rw [hmerge]
          refine ⟨⟨rfl, hl0, ?_⟩, ih2, ih3, ?_⟩
          · have hxlast :
                (merge_two_lists_loop f' (h.setNxt last l1) (h.nxt l1) l2 l1).nxt last =
                  (h.setNxt last l1).nxt last := by
              refine ih4 last ?_
              intro hmem
              rcases List.mem_cons.mp hmem with h1 | h2
              · exact hne_a_last h1.symm
              · exact hlastne last h2 rfl
            rw [hxlast, Heap.nxt_setNxt, if_pos rfl]
            exact ih1
          · intro x hx
            have hx1 : x ≠ last := by simp at hx; exact hx.1
            have hx2 : x ∉ l1 :: (c1' ++ l2 :: c2') := by
              simp at hx ⊢
              exact ⟨hx.2.1, hx.2.2⟩
            rw [ih4 x hx2, Heap.nxt_setNxt, if_neg hx1]
        · rw [if_neg hcmp]
          have hne_b_last : l2 ≠ last := by
            intro hEq
            exact hlast (hEq ▸ List.mem_append.mpr (Or.inr (by simp)))
          have hstep : (h.setNxt last l2).nxt l2 = h.nxt l2 := by
            rw [Heap.nxt_setNxt, if_neg hne_b_last]
          rw [hstep]
          have hbnotin : l2 ∉ (l1 :: c1') ++ c2' := by
            intro hmem
            have hthis := hnd
            rw [show (l1 :: c1') ++ (l2 :: c2') = l1 :: (c1' ++ l2 :: c2') from rfl] at hthis
            rcases List.mem_append.mp hmem with h1 | h2
            · rcases List.mem_cons.mp h1 with h3 | h4
              · exact (List.nodup_cons.mp hthis).1
                  (h3 ▸ List.mem_append.mpr (Or.inr (by simp)))
              · have hnd2 := (List.nodup_cons.mp hthis).2
                rw [List.nodup_append] at hnd2
                exact absurd (by simp) (hnd2.2.2 h4)
            · have hnd2 := (List.nodup_cons.mp hthis).2
              rw [List.nodup_append] at hnd2
              exact (List.nodup_cons.mp hnd2.2.1).1 h2
          have hc1n : chainIs (h.setNxt last l2) l1 (l1 :: c1') := by
            refine chainIs_congr ?_ ⟨rfl, ha0, hrest1⟩
            intro x hx
            rcases List.mem_cons.mp hx with h1 | h2
            · rw [Heap.nxt_setNxt, if_neg ?_]
              intro hEq
              exact hlast (h1 ▸ hEq ▸ (by simp))
            · rw [Heap.nxt_setNxt,
                if_neg (hlastne x (List.mem_append.mpr (Or.inl h2)))]
          have hc2n : chainIs (h.setNxt last l2) (h.nxt l2) c2' := by
            refine chainIs_congr ?_ hrest2
            intro x hx
            rw [Heap.nxt_setNxt,
              if_neg (hlastne x (List.mem_append.mpr (Or.inr (List.mem_cons_of_mem l2 hx))))]
          have hndn : ((l1 :: c1') ++ c2').Nodup := by
            have hperm : ((l1 :: c1') ++ (l2 :: c2')).Perm (l2 :: ((l1 :: c1') ++ c2')) :=
              List.perm_middle
            have := hperm.nodup hnd
            exact (List.nodup_cons.mp this).2
          obtain ⟨ih1, ih2, ih3, ih4⟩ :=
            merge_loop_spec (l1 :: c1') c2' f' (h.setNxt last l2) l1 (h.nxt l2) l2
              (by simp at hf' ⊢; omega) hc1n hc2n hndn hbnotin hb0
          have hvaleq : (h.setNxt last l2).val = h.val := rfl
          rw [hvaleq] at ih1 ih2
          have hmerge :
              merge_two_lists (fun n => h.val n) (l1 :: c1') (l2 :: c2') =
                l2 :: merge_two_lists (fun n => h.val n) (l1 :: c1') c2' := by
            simp only [merge_two_lists]
            rw [if_neg hcmp]
          rw [hmerge]
          refine ⟨⟨rfl, hl0, ?_⟩, ih2, ih3, ?_⟩
          · have hxlast :
                (merge_two_lists_loop f' (h.setNxt last l2) l1 (h.nxt l2) l2).nxt last =
                  (h.setNxt last l2).nxt last := by
              refine ih4 last ?_
              intro hmem
              rcases List.mem_cons.mp hmem with h1 | h2
              · exact hne_b_last h1.symm
              · rcases List.mem_append.mp h2 with h3 | h4
                · exact hlast (List.mem_append.mpr (Or.inl h3))
                · exact hlast (List.mem_append.mpr (Or.inr (List.mem_cons_of_mem l2 h4)))
            rw [hxlast, Heap.nxt_setNxt, if_pos rfl]
            exact ih1
          · intro x hx
            have hx1 : x ≠ last := by simp at hx; exact hx.1
            have hx2 : x ∉ l2 :: ((l1 :: c1') ++ c2') := by
              simp at hx ⊢
              tauto
            rw [ih4 x hx2, Heap.nxt_setNxt, if_neg hx1]
termination_by c1 c2 => c1.length + c2.length

theorem merge_heap_spec (c1 c2 : List Nat) (f : Nat) (h : Heap) (l1 l2 : Nat)
    (hf : c1.length + c2.length ≤ f)
    (hc1 : chainIs h l1 c1) (hc2 : chainIs h l2 c2)
    (hnd : (c1 ++ c2).Nodup) :
    chainIs (merge_two_lists_heap f h l1 l2).1 (merge_two_lists_heap f h l1 l2).2
      (merge_two_lists (fun n => h.val n) c1 c2) ∧
    (merge_two_lists_heap f h l1 l2).1.val = h.val ∧
    (merge_two_lists_heap f h l1 l2).1.prv = h.prv ∧
    ∀ x, x ∉ c1 ++ c2 → (merge_two_lists_heap f h l1 l2).1.nxt x = h.nxt x := by
  cases c1 with
  | nil =>
      have hl1 : l1 = 0 := hc1
      rw [merge_two_lists_heap, if_pos (Or.inl hl1), hl1, Nat.zero_or]
      simp only [merge_two_lists]
      exact ⟨hc2, trivial, trivial, fun x _ => trivial⟩
  | cons a c1' =>
  cases c2 with
  | nil =>
      have hl2 : l2 = 0 := hc2
      rw [merge_two_lists_heap, if_pos (Or.inr hl2), hl2, Nat.or_zero]
      simp only [merge_two_lists]
      exact ⟨hc1, trivial, trivial, fun x _ => trivial⟩
  | cons b c2' =>
      obtain ⟨ha, ha0, hrest1⟩ := hc1
      obtain ⟨hb, hb0, hrest2⟩ := hc2
      subst ha hb
      have hcond : ¬(l1 = 0 ∨ l2 = 0) := by
        intro hor; cases hor with
        | inl h1 => exact ha0 h1
        | inr h2 => exact hb0 h2
      rw [merge_two_lists_heap, if_neg hcond]
      have hanotin : l1 ∉ c1' ++ l2 :: c2' := by
        have := hnd
        rw [show (l1 :: c1') ++ (l2 :: c2') = l1 :: (c1' ++ l2 :: c2') from rfl,
          List.nodup_cons] at this
        exact this.1
      have hndtail : (c1' ++ l2 :: c2').Nodup := by
        have := hnd
        rw [show (l1 :: c1') ++ (l2 :: c2') = l1 :: (c1' ++ l2 :: c2') from rfl,
          List.nodup_cons] at this
        exact this.2
      by_cases hcmp : strcmp (h.val l1) (h.val l2) ≤ 0
      · rw [if_pos hcmp]
        obtain ⟨ih1, ih2, ih3, ih4⟩ :=
          merge_loop_spec c1' (l2 :: c2') f h (h.nxt l1) l2 l1
            (by simp at hf ⊢; omega) hrest1 ⟨rfl, hb0, hrest2⟩ hndtail hanotin ha0
        have hmerge :
            merge_two_lists (fun n => h.val n) (l1 :: c1') (l2 :: c2') =
              l1 :: merge_two_lists (fun n => h.val n) c1' (l2 :: c2') := by
          simp only [merge_two_lists]
          rw [if_pos hcmp]
        rw [hmerge]
        exact ⟨ih1, ih2, ih3, fun x hx => ih4 x (by simp at hx ⊢; tauto)⟩
      · rw [if_neg hcmp]
        have hbnotin : l2 ∉ (l1 :: c1') ++ c2' := by
          intro hmem
          rcases List.mem_append.mp hmem with h1 | h2
          · rcases List.mem_cons.mp h1 with h3 | h4
            · exact hanotin (h3 ▸ List.mem_append.mpr (Or.inr (by simp)))
            · have hnd2 := hndtail
              rw [List.nodup_append] at hnd2
              exact absurd (by simp) (hnd2.2.2 h4)
          · have hnd2 := hndtail
            rw [List.nodup_append] at hnd2
            exact (List.nodup_cons.mp hnd2.2.1).1 h2
        have hndswap : ((l1 :: c1') ++ c2').Nodup := by
          have hperm : ((l1 :: c1') ++ (l2 :: c2')).Perm (l2 :: ((l1 :: c1') ++ c2')) :=
            List.perm_middle
          have := hperm.nodup hnd
          exact (List.nodup_cons.mp this).2
        obtain ⟨ih1, ih2, ih3, ih4⟩ :=
          merge_loop_spec (l1 :: c1') c2' f h l1 (h.nxt l2) l2
            (by simp at hf ⊢; omega) ⟨rfl, ha0, hrest1⟩ hrest2 hndswap hbnotin hb0
        have hmerge :
            merge_two_lists (fun n => h.val n) (l1 :: c1') (l2 :: c2') =
              l2 :: merge_two_lists (fun n => h.val n) (l1 :: c1') c2' := by
          simp only [merge_two_lists]
          rw [if_neg hcmp]
        rw [hmerge]
        exact ⟨ih1, ih2, ih3, fun x hx => ih4 x (by simp at hx ⊢; tauto)⟩

/-- The fast/slow scan of `merge_sort` (`queue.c:325-330`): on the
NULL-terminated chain the loop guard is `fast && fast->next`. -/
def msort_split_loop : Nat → Heap → Nat → Nat → Nat
  | 0, _, _, slow => slow
  | f + 1, h, fast, slow =>
      if fast ≠ 0 ∧ h.nxt fast ≠ 0 then
        msort_split_loop f h (h.nxt (h.nxt fast)) (h.nxt slow)
      else slow

/-- The slow cursor of the fast/slow scan ends on the node at index
`fastSlowSteps u` of the chain that starts at the slow cursor, where
`u` is the chain remaining ahead of the fast cursor. -/
theorem msort_split_loop_spec :
    ∀ (u : List Nat) (v w : List Nat) (f : Nat) (h : Heap) (pf cs : Nat),
      fastSlowSteps u ≤ f →
      chainIs h pf u →
      cs ≠ 0 → chainIs h (h.nxt cs) v →
      v = w ++ u →
      msort_split_loop f h pf cs = (cs :: v).getD (fastSlowSteps u) 0
  | [], v, w, f, h, pf, cs, hf, hcf, hcs0, hcsv, hvw => by
      have hpf : pf = 0 := hcf
      have hsteps : fastSlowSteps ([] : List Nat) = 0 := by simp [fastSlowSteps]
      rw [hsteps, List.getD_cons_zero]
      cases f with
      | zero => rfl
      | succ f' =>
          rw [msort_split_loop, if_neg (by simp [hpf])]
  | [d], v, w, f, h, pf, cs, hf, hcf, hcs0, hcsv, hvw => by
      obtain ⟨hpfd, hd0, hnil⟩ := hcf
      have hnd : h.nxt d = 0 := hnil
      have hsteps : fastSlowSteps [d] = 0 := by simp [fastSlowSteps]
      rw [hsteps, List.getD_cons_zero]
      cases f with
      | zero => rfl
      | succ f' =>
          rw [msort_split_loop, if_neg (by
            rw [hpfd]
            simp [hnd])]
  | d :: e :: u', v, w, f, h, pf, cs, hf, hcf, hcs0, hcsv, hvw => by
      obtain ⟨hpfd, hd0, hrestd⟩ := hcf
      obtain ⟨hnde, he0, hreste⟩ := hrestd
      have hsteps : fastSlowSteps (d :: e :: u') = fastSlowSteps u' + 1 := rfl
      have hfpos : 1 ≤ f := by rw [hsteps] at hf; omega
      match f, hfpos with
      | f' + 1, _ =>
        rw [msort_split_loop, if_pos (by
          rw [hpfd, hnde]
          exact ⟨hd0, he0⟩)]
        have hvne : v ≠ [] := by
          rw [hvw]
          intro hEq
          have := congrArg List.length hEq
          simp at this
        cases hv : v with
        | nil => exact absurd hv hvne
        | cons vh v' =>
            subst hv
            obtain ⟨hcsvh, hvh0, hrestv⟩ := hcsv
            have hw' : v' = (if w = [] then [e] else w.tail ++ [d, e]) ++ u' := by
              cases hww : w with
              | nil =>
                  subst hww
                  simp at hvw
                  rw [if_pos rfl]
                  simp [hvw.2]
              | cons w0 w'' =>
                  subst hww
                  simp at hvw
                  rw [if_neg (by simp)]
                  simp [hvw.2]
            have hrec := msort_split_loop_spec u' v'
              (if w = [] then [e] else w.tail ++ [d, e]) f' h
              (h.nxt (h.nxt pf)) (h.nxt cs)
              (by rw [hsteps] at hf; omega)
              (by rw [hpfd, hnde]; exact hreste)
              (by rw [hcsvh]; exact hvh0)
              (by rw [hcsvh]; exact hrestv)
              hw'
            rw [hrec, hsteps, List.getD_cons_succ, hcsvh]

/-- `merge_sort` (`queue.c:320-336`) on the heap: return immediately on
a NULL or singleton chain, otherwise run the fast/slow scan, cut the
chain after the slow node (`slow->next = NULL`, reading `fast =
slow->next` first), sort the halves recursively and merge them.  The
first argument is recursion fuel. -/
def merge_sort_heap : Nat → Heap → Nat → Heap × Nat
  | 0, h, hd => (h, hd)
  | F + 1, h, hd =>
      if hd = 0 then (h, hd)
      else if h.nxt hd = 0 then (h, hd)
      else
        let slow := msort_split_loop (F + 1) h (h.nxt hd) hd
        let fst := h.nxt slow
        let h1 := h.setNxt slow 0
        let r1 := merge_sort_heap F h1 hd
        let r2 := merge_sort_heap F r1.1 fst
        merge_two_lists_heap (F + 1) r2.1 r1.2 r2.2

/-- Adequacy of the heap-level merge sort: on a chain holding `c` it
returns a chain holding `merge_sort` of `c`, touches no `prev` field,
no payload, and no `next` field outside the chain's nodes. -/
theorem merge_sort_heap_spec :
    ∀ (F : Nat) (c : List Nat) (h : Heap) (p : Nat),
      c.length ≤ F →
      chainIs h p c → c.Nodup →
      chainIs (merge_sort_heap F h p).1 (merge_sort_heap F h p).2
        (merge_sort (fun n => h.val n) c) ∧
      (merge_sort_heap F h p).1.val = h.val ∧
      (merge_sort_heap F h p).1.prv = h.prv ∧
      ∀ x, x ∉ c → (merge_sort_heap F h p).1.nxt x = h.nxt x
  | 0, c, h, p, hf, hc, hnd => by
      have hc0 : c = [] := List.eq_nil_of_length_eq_zero (Nat.le_zero.mp hf)
      subst hc0
      simp only [merge_sort, merge_sort_heap]
      exact ⟨hc, trivial, trivial, fun x _ => trivial⟩
  | F + 1, c, h, p, hf, hc, hnd => by
      cases hcc : c with
      | nil =>
          subst hcc
          have hp : p = 0 := hc
          rw [merge_sort_heap, if_pos hp]
          simp only [merge_sort]
          exact ⟨hc, trivial, trivial, fun x _ => trivial⟩
      | cons n rest =>
      subst hcc
      obtain ⟨hpn, hn0, hrest⟩ := hc
      have hn0p : p ≠ 0 := by rw [hpn]; exact hn0
      cases hrr : rest with
      | nil =>
          subst hrr
          have hnx : h.nxt n = 0 := hrest
          rw [merge_sort_heap, if_neg hn0p, hpn, if_pos hnx]
          simp only [merge_sort]
          exact ⟨⟨rfl, hn0, hrest⟩, trivial, trivial, fun x _ => trivial⟩
      | cons m rest' =>
      subst hrr
      have hm : h.nxt n ≠ 0 := by
        intro hEq
        have : chainIs h 0 (m :: rest') := hEq ▸ hrest
        exact this.2.1 this.1.symm
      have hmp : h.nxt p ≠ 0 := by rw [hpn]; exact hm
      -- the slow cursor
      have hslow : msort_split_loop (F + 1) h (h.nxt p) p =
          (n :: m :: rest').getD (fastSlowSteps (m :: rest')) 0 := by
        rw [hpn]
        exact msort_split_loop_spec (m :: rest') (m :: rest') [] (F + 1) h
          (h.nxt n) n
          (by rw [fastSlowSteps_eq]; simp at hf ⊢; omega)
          hrest hn0 hrest rfl
      set k := fastSlowSteps (m :: rest') with hk
      have hkval : k = (m :: rest').length / 2 := by rw [hk, fastSlowSteps_eq]
      have hk1 : k + 1 ≤ (n :: m :: rest').length := by
        rw [hkval]; simp; omega
      set slow := (n :: m :: rest').getD k 0 with hslowdef
      have hunfold : merge_sort_heap (F + 1) h p =
          merge_two_lists_heap (F + 1)
            (merge_sort_heap F (merge_sort_heap F (h.setNxt slow 0) p).1
              (h.nxt slow)).1
            (merge_sort_heap F (h.setNxt slow 0) p).2
            (merge_sort_heap F (merge_sort_heap F (h.setNxt slow 0) p).1
              (h.nxt slow)).2 := by
        rw [merge_sort_heap, if_neg hn0p, if_neg hmp, hslow]
      rw [hunfold]
      have hsplit := chainIs_split (n :: m :: rest') k h p
        ⟨hpn, hn0, hrest⟩ hnd hk1
      set tk := (n :: m :: rest').take (k + 1) with htk
      set dr := (n :: m :: rest').drop (k + 1) with hdr
      obtain ⟨hctk, hcdr⟩ := hsplit
      have htklen : tk.length = k + 1 := by
        rw [htk, List.length_take]; simp at hk1 ⊢; omega
      have hdrlen : dr.length = rest'.length + 2 - (k + 1) := by
        rw [hdr, List.length_drop]; simp
      have htknd : tk.Nodup := (List.take_sublist _ _).nodup hnd
      have hdrnd : dr.Nodup := (List.drop_sublist _ _).nodup hnd
      have hdisj : ∀ x, x ∈ dr → x ∉ tk := by
        intro x hxd hxt
        have := hnd
        rw [← List.take_append_drop (k + 1) (n :: m :: rest'),
          List.nodup_append] at this
        exact this.2.2 hxt hxd
      -- first recursive call
      have hval1 : (fun q => (h.setNxt slow 0).val q) = (fun q => h.val q) := rfl
      obtain ⟨ih1c, ih1v, ih1p, ih1n⟩ :=
        merge_sort_heap_spec F tk (h.setNxt slow 0) p
          (by rw [htklen, hkval]; simp at hf ⊢; omega)
          hctk htknd
      rw [hval1] at ih1c
      set r1 := merge_sort_heap F (h.setNxt slow 0) p with hr1
      -- second recursive call
      have hcdr2 : chainIs r1.1 (h.nxt slow) dr := by
        refine chainIs_congr ?_ hcdr
        intro x hx
        exact ih1n x (hdisj x hx)
      obtain ⟨ih2c, ih2v, ih2p, ih2n⟩ :=
        merge_sort_heap_spec F dr r1.1 (h.nxt slow)
          (by rw [hdrlen, hkval]; simp at hf ⊢; omega)
          hcdr2 hdrnd
      have hval2 : (fun q => r1.1.val q) = (fun q => h.val q) := by
        funext q
        rw [ih1v]
        rfl
      rw [hval2] at ih2c
      set r2 := merge_sort_heap F r1.1 (h.nxt slow) with hr2
      -- the two sorted halves
      set msTk := merge_sort (fun q => h.val q) tk with hmsTk
      set msDr := merge_sort (fun q => h.val q) dr with hmsDr
      have hpermTk : msTk.Perm tk := merge_sort_perm _ _
      have hpermDr : msDr.Perm dr := merge_sort_perm _ _
      have hchTk : chainIs r2.1 r1.2 msTk := by
        refine chainIs_congr ?_ ih1c
        intro x hx
        refine ih2n x ?_
        intro hxd
        exact hdisj x hxd (hpermTk.mem_iff.mp hx)
      have hndm : (msTk ++ msDr).Nodup := by
        have hperm : (msTk ++ msDr).Perm (tk ++ dr) := hpermTk.append hpermDr
        have : (tk ++ dr).Nodup := by
          rw [htk, hdr, List.take_append_drop]
          exact hnd
        exact hperm.symm.nodup this
      have hfuel : msTk.length + msDr.length ≤ F + 1 := by
        rw [hpermTk.length_eq, hpermDr.length_eq, htklen, hdrlen, hkval]
        simp at hf ⊢; omega
      obtain ⟨mc, mv, mp, mn⟩ :=
        merge_heap_spec msTk msDr (F + 1) r2.1 r1.2 r2.2 hfuel hchTk ih2c hndm
      have hval3 : (fun q => r2.1.val q) = (fun q => h.val q) := by
        funext q
        rw [ih2v, ih1v]
        rfl
      rw [hval3] at mc
      have hgoal : merge_sort (fun q => h.val q) (n :: m :: rest') =
          merge_two_lists (fun q => h.val q) msTk msDr := by
        rw [hmsTk, hmsDr, htk, hdr]
        simp only [merge_sort]
      rw [hgoal]
      refine ⟨mc, ?_, ?_, ?_⟩
      · rw [mv, ih2v, ih1v]
        rfl
      · rw [mp, ih2p, ih1p]
        rfl
      · intro x hx
        have hxtk : x ∉ tk := by
          intro hmem
          exact hx ((List.take_sublist _ _).mem hmem)
        have hxdr : x ∉ dr := by
          intro hmem
          exact hx ((List.drop_sublist _ _).mem hmem)
        have hxslow : x ≠ slow := by
          intro hEq
          apply hx
          rw [hEq, hslowdef]
          have hklt : k < (n :: m :: rest').length := by
            simp at hk1 ⊢; omega
          rw [List.getD_eq_getElem?_getD, List.getElem?_eq_getElem hklt]
          exact List.getElem_mem _
        rw [mn x (by
          intro hmem
          rcases List.mem_append.mp hmem with h1 | h2
          · exact hxtk (hpermTk.mem_iff.mp h1)
          · exact hxdr (hpermDr.mem_iff.mp h2)),
          ih2n x hxdr, ih1n x hxtk, Heap.nxt_setNxt, if_neg hxslow]

/-- The prev-rebuilding pass of `q_sort` (`queue.c:350-351`):
`for (n = head; n->next != NULL; n = n->next) n->next->prev = n;`.
Returns the final heap and the final cursor `n`. -/
def rethread_loop : Nat → Heap → Nat → Heap × Nat
  | 0, h, n => (h, n)
  | f + 1, h, n =>
      if h.nxt n = 0 then (h, n)
      else rethread_loop f (h.setPrv (h.nxt n) n) (h.nxt n)

theorem rethread_loop_spec :
    ∀ (u : List Nat) (f : Nat) (h : Heap) (c : Nat),
      u.length ≤ f →
      chainIs h (h.nxt c) u →
      c ≠ 0 → c ∉ u → u.Nodup →
      (rethread_loop f h c).2 = (c :: u).getLast (by simp) ∧
      (rethread_loop f h c).1.val = h.val ∧
      (rethread_loop f h c).1.nxt = h.nxt ∧
      (∀ x, x ∉ u → (rethread_loop f h c).1.prv x = h.prv x) ∧
      List.Chain (fun p q => (rethread_loop f h c).1.nxt p = q ∧
        (rethread_loop f h c).1.prv q = p) c u
  | [], f, h, c, hf, hch, hc0, hcu, hnd => by
      have hnx : h.nxt c = 0 := hch
      cases f with
      | zero => exact ⟨rfl, rfl, rfl, fun x _ => rfl, List.Chain.nil⟩
      | succ f' =>
          rw [rethread_loop, if_pos hnx]
          exact ⟨rfl, rfl, rfl, fun x _ => rfl, List.Chain.nil⟩
  | y :: u', f, h, c, hf, hch, hc0, hcu, hnd => by
      obtain ⟨hy, hy0, hrest⟩ := hch
      match f, hf with
      | f' + 1, hf' =>
        rw [rethread_loop, if_neg (by rw [hy]; exact hy0), hy]
        have hcy : c ≠ y := by
          intro hEq; exact hcu (hEq ▸ (by simp))
        obtain ⟨ih1, ih2, ih3, ih4, ih5⟩ :=
          rethread_loop_spec u' f' (h.setPrv y c) y
            (by simp at hf' ⊢; omega)
            (@chainIs_congr u' h (h.setPrv y c) (h.nxt y) (fun x _ => rfl) hrest)
            hy0 (List.nodup_cons.mp hnd).1 (List.nodup_cons.mp hnd).2
        have hgl : ((c :: y :: u').getLast (by simp)) = ((y :: u').getLast (by simp)) :=
          List.getLast_cons (by simp)
        refine ⟨?_, ?_, ?_, ?_, ?_⟩
        · rw [hgl]; exact ih1
        · rw [ih2]; rfl
        · rw [ih3]; rfl
        · intro x hx
          have hx1 : x ≠ y := by intro hEq; exact hx (hEq ▸ (by simp))
          have hx2 : x ∉ u' := fun hm => hx (List.mem_cons_of_mem y hm)
          rw [ih4 x hx2, Heap.prv_setPrv, if_neg hx1]
        · refine List.chain_cons.mpr ⟨⟨?_, ?_⟩, ih5⟩
          · rw [ih3]
            show (h.setPrv y c).nxt c = y
            exact hy
          · rw [ih4 y (List.nodup_cons.mp hnd).1, Heap.prv_setPrv, if_pos rfl]

/-- `q_sort` (`queue.c:338-355`): when the queue has more than one
element, cut the ring open (`head->prev->next = NULL`), `merge_sort`
the chain starting at `head->next`, hook the sorted chain back onto the
sentinel (`head->next = list`), rebuild the `prev` links by a forward
pass and close the ring (`head->prev = n; n->next = head`). -/
def q_sort_heap (h : Heap) (hd : Nat) (F : Nat) : Heap :=
  if q_size_heap h hd F ≤ 1 then h
  else
    let lst := h.nxt hd
    let h1 := h.setNxt (h.prv hd) 0
    let r := merge_sort_heap F h1 lst
    let h2 := r.1.setNxt hd r.2
    let r3 := rethread_loop F h2 hd
    (r3.1.setPrv hd r3.2).setNxt r3.2 hd

/-- `q_sort` preserves the ring shape: the sentinel ends up ringing the
`merge_sort`-image of the old node order, and no payload moves. -/
theorem q_sort_heap_ring {h : Heap} {hd : Nat} {ns : List Nat}
    (hr : isRing h hd ns) :
    isRing (q_sort_heap h hd ns.length) hd (merge_sort (fun n => h.val n) ns) ∧
    (q_sort_heap h hd ns.length).val = h.val := by
  have hsize := q_size_heap_spec hr
  by_cases hle : ns.length ≤ 1
  · have heq : q_sort_heap h hd ns.length = h := by
      unfold q_sort_heap
      rw [if_pos (by rw [hsize]; exact hle)]
    rw [heq]
    cases ns with
    | nil => simp only [merge_sort]; exact ⟨hr, trivial⟩
    | cons a t =>
        cases t with
        | nil => simp only [merge_sort]; exact ⟨hr, trivial⟩
        | cons b t' => simp at hle
  · -- at least two elements
    obtain ⟨a, t, hat⟩ : ∃ a t, ns = a :: t := by
      cases ns with
      | nil => simp at hle
      | cons a t => exact ⟨a, t, rfl⟩
    subst hat
    have htne : t ≠ [] := by
      intro hEq; rw [hEq] at hle; simp at hle
    have hndns : (a :: t).Nodup := (List.nodup_cons.mp hr.1).2
    have hhdnotin : hd ∉ a :: t := (List.nodup_cons.mp hr.1).1
    have hnz : ∀ x ∈ a :: t, x ≠ 0 :=
      fun x hx => hr.2.1 x (List.mem_cons_of_mem hd hx)
    have hhd0 : hd ≠ 0 := ring_hd_ne_zero hr
    -- head->prev is the last node
    have hprvhd : h.prv hd = (a :: t).getLast (by simp) := by
      have hedge := (ring_last_edge hr).2
      rw [List.getLast_cons (by simp)] at hedge
      exact hedge
    -- head->next is the first node
    have hnxthd : h.nxt hd = a := ring_nxt_head hr
    -- cutting the ring gives the chain a :: t
    have hcut : chainIs (h.setNxt ((a :: t).getLast (by simp)) 0) a (a :: t) := by
      refine cut_chainIs t h hd a ?_ hnz hndns
      exact List.Chain.imp (fun p q hpq => hpq.1) (List.chain_cons.mp hr.2.2).2
    rw [← hprvhd] at hcut
    -- unfold the body
    set L := (a :: t).length with hL
    have hguard : ¬ q_size_heap h hd L ≤ 1 := by rw [hsize]; exact hle
    have hunfold : q_sort_heap h hd L =
        ((rethread_loop L
            ((merge_sort_heap L (h.setNxt (h.prv hd) 0) (h.nxt hd)).1.setNxt hd
              (merge_sort_heap L (h.setNxt (h.prv hd) 0) (h.nxt hd)).2) hd).1.setPrv hd
          (rethread_loop L
            ((merge_sort_heap L (h.setNxt (h.prv hd) 0) (h.nxt hd)).1.setNxt hd
              (merge_sort_heap L (h.setNxt (h.prv hd) 0) (h.nxt hd)).2) hd).2).setNxt
          (rethread_loop L
            ((merge_sort_heap L (h.setNxt (h.prv hd) 0) (h.nxt hd)).1.setNxt hd
              (merge_sort_heap L (h.setNxt (h.prv hd) 0) (h.nxt hd)).2) hd).2 hd := by
      unfold q_sort_heap
      rw [if_neg hguard]
    rw [hunfold, hnxthd]
    -- the merge_sort pass
    obtain ⟨msc, msv, msp, msn⟩ :=
      merge_sort_heap_spec L (a :: t) (h.setNxt (h.prv hd) 0) a
        (le_refl _) hcut hndns
    have hvaleq : (fun q => (h.setNxt (h.prv hd) 0).val q) = (fun q => h.val q) := rfl
    rw [hvaleq] at msc
    set r := merge_sort_heap L (h.setNxt (h.prv hd) 0) a with hrdef
    set sorted := merge_sort (fun q => h.val q) (a :: t) with hsorted
    have hperm : sorted.Perm (a :: t) := merge_sort_perm _ _
    have hsortedne : sorted ≠ [] := by
      intro hEq
      have := hperm.length_eq
      rw [hEq] at this
      simp at this
    have hhdnots : hd ∉ sorted := fun hm => hhdnotin (hperm.mem_iff.mp hm)
    have hsortednd : sorted.Nodup := hperm.symm.nodup hndns
    have hsortednz : ∀ x ∈ sorted, x ≠ 0 := fun x hx => hnz x (hperm.mem_iff.mp hx)
    -- hooking the sorted chain onto the sentinel
    set h2 := r.1.setNxt hd r.2 with hh2
    have hch2 : chainIs h2 r.2 sorted := by
      refine chainIs_congr ?_ msc
      intro x hx
      rw [hh2, Heap.nxt_setNxt, if_neg ?_]
      intro hEq
      exact hhdnots (hEq ▸ hx)
    have hsortlen : sorted.length = L := by rw [hperm.length_eq]
    -- the rethread pass
    obtain ⟨rt1, rt2, rt3, rt4, rt5⟩ :=
      rethread_loop_spec sorted L h2 hd (by rw [hsortlen])
        (by
          have : h2.nxt hd = r.2 := by rw [hh2, Heap.nxt_setNxt, if_pos rfl]
          rw [this]
          exact hch2)
        hhd0 hhdnots hsortednd
    set r3 := rethread_loop L h2 hd with hr3
    -- the final two writes close the ring
    have hlast : r3.2 = sorted.getLast hsortedne := by
      rw [rt1, List.getLast_cons hsortedne]
    have hlastmem : sorted.getLast hsortedne ∈ sorted := List.getLast_mem _
    refine ⟨⟨?_, ?_, ?_⟩, ?_⟩
    · -- Nodup
      exact List.nodup_cons.mpr ⟨hhdnots, hsortednd⟩
    · -- non-NULL
      intro x hx
      rcases List.mem_cons.mp hx with h1 | h2
      · exact h1 ▸ hhd0
      · exact hsortednz x h2
    · -- the edge chain around the new ring
      refine chain_snoc ?_ ?_
      · -- the chain along hd :: sorted
        refine chain_congr_adj ?_ rt5
        intro p q hp hq hpq
        have hq0 : q ≠ 0 := hsortednz q hq
        have hqhd : q ≠ hd := by
          intro hEq; exact hhdnots (hEq ▸ hq)
        constructor
        · -- next link survives the final writes
          rw [Heap.nxt_setNxt, if_neg ?_]
          · exact hpq.1
          · intro hEq
            -- p would be the last node, whose next is NULL in the chain
            have hnl : h2.nxt (sorted.getLast hsortedne) = 0 :=
              chainIs_getLast_nxt sorted h2 r.2 hsortedne hch2
            have : r3.1.nxt p = 0 := by
              rw [rt3, hEq, hlast]
              exact hnl
            rw [hpq.1] at this
            exact hq0 this
        · -- prev link survives the final writes
          show (r3.1.setPrv hd r3.2).prv q = p
          rw [Heap.prv_setPrv, if_neg hqhd]
          exact hpq.2
      · -- the closing edge from the last node back to the sentinel
        have hgl2 : ((hd :: sorted).getLast (by simp)) = sorted.getLast hsortedne :=
          List.getLast_cons hsortedne
        rw [hgl2, ← hlast]
        constructor
        · rw [Heap.nxt_setNxt, if_pos rfl]
        · show (r3.1.setPrv hd r3.2).prv hd = r3.2
          rw [Heap.prv_setPrv, if_pos rfl]
    · -- payloads unchanged
      show ((r3.1.setPrv hd r3.2).setNxt r3.2 hd).val = h.val
      have : r3.1.val = h.val := by
        rw [rt2, hh2]
        show r.1.val = h.val
        rw [msv]
        rfl
      rw [← this]
      rfl

/-! ## Reading the ring invariant as sentinel walks (claim C6) -/

theorem chain_iterate {F : Nat → Nat} :
    ∀ {a : Nat} {l : List Nat},
      List.Chain (fun p q => F p = q) a l →
      ∀ i, i ≤ l.length → F^[i] a = (a :: l).getD i 0 := by
  intro a l
  induction l generalizing a with
  | nil =>
      intro _ i hi
      have hi0 : i = 0 := Nat.le_zero.mp hi
      subst hi0
      rfl
  | cons b t ih =>
      intro hch i hi
      obtain ⟨hab, hct⟩ := List.chain_cons.mp hch
      cases i with
      | zero => rfl
      | succ j =>
          rw [Function.iterate_succ_apply, hab, List.getD_cons_succ]
          exact ih hct j (by simpa using hi)

/-- The walk reading of the ring invariant: following `next` from the
sentinel visits the elements in order and returns to the sentinel after
`n + 1` steps, following `prev` visits them in reverse order, and the
visited stations are pairwise distinct ("every linked element exactly
once"). -/
theorem isRing_walkNext {h : Heap} {hd : Nat} {ns : List Nat}
    (hr : isRing h hd ns) :
    (∀ i, i ≤ ns.length → (h.nxt)^[i] hd = (hd :: ns).getD i 0) ∧
    (h.nxt)^[ns.length + 1] hd = hd ∧
    (∀ i, i ≤ ns.length → (h.prv)^[i] hd = (hd :: ns.reverse).getD i 0) ∧
    (h.prv)^[ns.length + 1] hd = hd := by
  have hnxtchain : List.Chain (fun p q => h.nxt p = q) hd (ns ++ [hd]) :=
    List.Chain.imp (fun p q hpq => hpq.1) hr.2.2
  have hprvchain : List.Chain (fun p q => h.prv p = q) hd (ns.reverse ++ [hd]) :=
    List.Chain.imp (fun p q hpq => hpq.2) (chain_cycle_reverse hr.2.2)
  have hnxt := chain_iterate hnxtchain
  have hprv := chain_iterate hprvchain
  refine ⟨?_, ?_, ?_, ?_⟩
  · intro i hi
    rw [hnxt i (by simp; omega)]
    show ((hd :: ns) ++ [hd]).getD i 0 = (hd :: ns).getD i 0
    rw [List.getD_append]
    simp; omega
  · rw [hnxt (ns.length + 1) (by simp)]
    show ((hd :: ns) ++ [hd]).getD (ns.length + 1) 0 = hd
    rw [List.getD_append_right] <;> simp
  · intro i hi
    rw [hprv i (by simp; omega)]
    show ((hd :: ns.reverse) ++ [hd]).getD i 0 = (hd :: ns.reverse).getD i 0
    rw [List.getD_append]
    simp; omega
  · rw [hprv (ns.length + 1) (by simp)]
    show ((hd :: ns.reverse) ++ [hd]).getD (ns.length + 1) 0 = hd
    rw [List.getD_append_right] <;> simp

/-- The stations of the walk are pairwise distinct. -/
theorem isRing_walk_distinct {h : Heap} {hd : Nat} {ns : List Nat}
    (hr : isRing h hd ns) :
    ∀ i j, i < j → j ≤ ns.length →
      (hd :: ns).getD i 0 ≠ (hd :: ns).getD j 0 := by
  intro i j hij hj
  have hilt : i < (hd :: ns).length := by simp; omega
  have hjlt : j < (hd :: ns).length := by simp; omega
  have hne := (List.nodup_iff_getElem?_ne_getElem?.mp hr.1) i j hij hjlt
  rw [List.getD_eq_getElem?_getD, List.getElem?_eq_getElem hilt,
    List.getD_eq_getElem?_getD, List.getElem?_eq_getElem hjlt]
  simp only [Option.getD_some]
  intro hEq
  apply hne
  rw [List.getElem?_eq_getElem hilt, List.getElem?_eq_getElem hjlt, hEq]

theorem chain_sources_edge {R : Nat → Nat → Prop} :
    ∀ {a : Nat} (l : List Nat), l ≠ [] → List.Chain R a l →
      ∀ p ∈ a :: l.dropLast, ∃ q, R p q := by
  intro a l
  induction l generalizing a with
  | nil =>
      intro hne
      exact absurd rfl hne
  | cons b t ih =>
      intro _ hch p hp
      obtain ⟨hab, hct⟩ := List.chain_cons.mp hch
      cases t with
      | nil =>
          simp at hp
          exact ⟨b, hp ▸ hab⟩
      | cons c t' =>
          have hp2 : p = a ∨ p ∈ b :: (c :: t').dropLast := by
            rcases List.mem_cons.mp hp with h1 | h2
            · exact Or.inl h1
            · right; simpa using h2
          rcases hp2 with h1 | h2
          · exact ⟨b, h1 ▸ hab⟩
          · exact ih (by simp) hct p h2

/-- The symmetry reading: inside the ring, `A.next == B` implies
`B.prev == A`. -/
theorem isRing_adjacent_symm {h : Heap} {hd : Nat} {ns : List Nat}
    (hr : isRing h hd ns) :
    ∀ p q, p ∈ hd :: ns → h.nxt p = q → h.prv q = p := by
  intro p q hp hnx
  have hsrc : p ∈ hd :: (ns ++ [hd]).dropLast := by
    rw [List.dropLast_concat]
    exact hp
  obtain ⟨q', hq'⟩ := chain_sources_edge (ns ++ [hd]) (by simp) hr.2.2 p hsrc
  have : q' = q := by rw [← hq'.1, hnx]
  rw [← this]
  exact hq'.2

/-- **C6**: every public operation (`q_insert_head`, `q_insert_tail`,
`q_remove_head`, `q_remove_tail`, `q_delete_mid`, `q_delete_dup`,
`q_swap`, `q_reverse`, `q_sort`), applied to a queue satisfying the
ring invariants, leaves a queue that still satisfies them.  `isRing`
is preserved by all nine operations (for the insertions, under the
assumption that `malloc` returned a fresh non-NULL node), and a ring
satisfies exactly the spec's reading of the invariant: following
`next` from the sentinel visits every linked element exactly once
(the stations of the walk are the pairwise-distinct `hd :: ms`) and
returns to the sentinel, following `prev` does the same in reverse
order, and `A.next == B` implies `B.prev == A` for nodes of the
ring. -/
theorem q_ops_preserve_invariants {h : Heap} {hd e : Nat} {ns : List Nat}
    (s : CStr) (hr : isRing h hd ns) (he0 : e ≠ 0) (hfresh : e ∉ hd :: ns) :
    isRing (q_insert_head_heap h hd e s) hd (e :: ns) ∧
    isRing (q_insert_tail_heap h hd e s) hd (ns ++ [e]) ∧
    isRing (q_remove_head_heap h hd) hd ns.tail ∧
    isRing (q_remove_tail_heap h hd) hd ns.dropLast ∧
    isRing (q_delete_mid_heap h hd ns.length) hd
      (ns.eraseIdx (fastSlowSteps ns)) ∧
    isRing (q_delete_dup_heap h hd ns.length) hd
      (q_delete_dup_scan (h.val) ns) ∧
    isRing (q_swap_heap h hd ns.length) hd (q_swap_pairs ns) ∧
    isRing (q_reverse_heap h hd (ns.length + 1)) hd ns.reverse ∧
    isRing (q_sort_heap h hd ns.length) hd
      (merge_sort (fun n => h.val n) ns) ∧
    (∀ (g : Heap) (ms : List Nat), isRing g hd ms →
      (∀ i, i ≤ ms.length → (g.nxt)^[i] hd = (hd :: ms).getD i 0) ∧
      (g.nxt)^[ms.length + 1] hd = hd ∧
      (∀ i, i ≤ ms.length → (g.prv)^[i] hd = (hd :: ms.reverse).getD i 0) ∧
      (g.prv)^[ms.length + 1] hd = hd ∧
      (∀ i j, i < j → j ≤ ms.length →
        (hd :: ms).getD i 0 ≠ (hd :: ms).getD j 0) ∧
      (∀ p q, p ∈ hd :: ms → g.nxt p = q → g.prv q = p)) :=
  ⟨q_insert_head_heap_ring s hr he0 hfresh,
   q_insert_tail_heap_ring s hr he0 hfresh,
   q_remove_head_heap_ring hr,
   q_remove_tail_heap_ring hr,
   q_delete_mid_heap_ring hr,
   (q_delete_dup_heap_ring hr).1,
   (q_swap_heap_ring hr).1,
   (q_reverse_heap_ring hr).1,
   (q_sort_heap_ring hr).1,
   fun g ms hrg =>
     ⟨(isRing_walkNext hrg).1, (isRing_walkNext hrg).2.1,
      (isRing_walkNext hrg).2.2.1, (isRing_walkNext hrg).2.2.2,
      isRing_walk_distinct hrg, isRing_adjacent_symm hrg⟩⟩

/-- Closed instance of `q_ops_preserve_invariants` on the concrete
`[1,2,3]` ring with sentinel `9`, inserting the fresh node `4`. -/
theorem q_ops_preserve_invariants_witness :
    ((4 : Nat) ≠ 0 ∧ (4 : Nat) ∉ 9 :: [1, 2, 3] ∧ isRing ringW 9 [1, 2, 3]) ∧
    isRing (q_insert_head_heap ringW 9 4 [65]) 9 [4, 1, 2, 3] ∧
    isRing (q_reverse_heap ringW 9 ([1, 2, 3].length + 1)) 9 [3, 2, 1] :=
  ⟨⟨by decide, by decide, ringW_isRing⟩,
   (@q_ops_preserve_invariants ringW 9 4 [1, 2, 3] [65] ringW_isRing
     (by decide) (by decide)).1,
   (@q_ops_preserve_invariants ringW 9 4 [1, 2, 3] [65] ringW_isRing
     (by decide) (by decide)).2.2.2.2.2.2.2.1⟩
